import Mathlib

/-!
Verification development for the Buenos Aires street-history map
(`public/app.js`).  The core name-resolution engine is embedded here as
executable Lean definitions translated from the JavaScript source:

* `normalizeStreetName`  — `normalizeStreetName` (app.js lines 248-265)
* `getNameVariants`      — `getNameVariants` (lines 268-288)
* `buildStreetData`      — lookup-table construction in `loadStreetData`
                           (lines 224-232)
* `buildStreetLayers`, `collectStreetNames`, `buildAllStreetNames`
                         — catalog construction in `loadStreetsGeoJSON`
                           (lines 309-341)
* `searchStreets`        — the filter/slice in `showSearchResults`
                           (lines 599-627)
* `selectStreet`, `clearHighlightedStreet`, `closePanel`,
  `findRestoreMatch`, `restoreFromURL`
                         — the selection state machine (lines 346-356,
                           490-511, 631-673, 736-749)

Strings are modelled as Lean `String`s (lists of characters); the
side-effecting map/DOM/URL calls are modelled as an explicit effect list.
-/

namespace CallesBA

/-! ## Character-level primitives

JavaScript's `toUpperCase`, `toLowerCase`, `normalize('NFD')` and the
regex classes `\s`, `\w` and `[̀-ͯ]` are modelled character by
character.  The upper/lower tables cover ASCII letters plus the accented
letters occurring in the Spanish datasets; other characters are fixed
points, matching `toUpperCase`/`toLowerCase` on the data's repertoire. -/

/-- JS regex `\s` (whitespace class), restricted to the code points that
can occur in the datasets: ASCII whitespace plus common Unicode spaces. -/
def isJsWs (c : Char) : Bool :=
  c = ' ' || c = '\t' || c = '\n' || c = '\r' ||
  c.toNat = 11 || c.toNat = 12 ||
  c.toNat = 0xa0 || c.toNat = 0x1680 ||
  (0x2000 ≤ c.toNat && c.toNat ≤ 0x200a) ||
  c.toNat = 0x2028 || c.toNat = 0x2029 || c.toNat = 0x202f ||
  c.toNat = 0x205f || c.toNat = 0x3000 || c.toNat = 0xfeff

/-- The combining diacritical marks range `[̀-ͯ]` removed by
`normalizeStreetName`. -/
def isCombiningMark (c : Char) : Bool :=
  0x300 ≤ c.toNat && c.toNat ≤ 0x36f

/-- JS regex `\w` (word character), used by the `\b` boundary in the
title-stripping regex. -/
def isWordChar (c : Char) : Bool :=
  ('A' ≤ c && c ≤ 'Z') || ('a' ≤ c && c ≤ 'z') ||
  ('0' ≤ c && c ≤ '9') || c = '_'

/-- `String.prototype.toUpperCase`, character-wise, on the repertoire of
the street datasets (ASCII letters and Spanish accented letters). -/
def jsUpper (c : Char) : Char :=
  if c = 'a' then 'A' else if c = 'b' then 'B' else if c = 'c' then 'C'
  else if c = 'd' then 'D' else if c = 'e' then 'E' else if c = 'f' then 'F'
  else if c = 'g' then 'G' else if c = 'h' then 'H' else if c = 'i' then 'I'
  else if c = 'j' then 'J' else if c = 'k' then 'K' else if c = 'l' then 'L'
  else if c = 'm' then 'M' else if c = 'n' then 'N' else if c = 'o' then 'O'
  else if c = 'p' then 'P' else if c = 'q' then 'Q' else if c = 'r' then 'R'
  else if c = 's' then 'S' else if c = 't' then 'T' else if c = 'u' then 'U'
  else if c = 'v' then 'V' else if c = 'w' then 'W' else if c = 'x' then 'X'
  else if c = 'y' then 'Y' else if c = 'z' then 'Z'
  else if c = 'á' then 'Á' else if c = 'é' then 'É' else if c = 'í' then 'Í'
  else if c = 'ó' then 'Ó' else if c = 'ú' then 'Ú' else if c = 'ü' then 'Ü'
  else if c = 'ñ' then 'Ñ' else if c = 'à' then 'À' else if c = 'è' then 'È'
  else if c = 'ì' then 'Ì' else if c = 'ò' then 'Ò' else if c = 'ù' then 'Ù'
  else c

/-- `String.prototype.toLowerCase`, character-wise, on the same
repertoire (used by the permalink restore paths). -/
def jsLower (c : Char) : Char :=
  if c = 'A' then 'a' else if c = 'B' then 'b' else if c = 'C' then 'c'
  else if c = 'D' then 'd' else if c = 'E' then 'e' else if c = 'F' then 'f'
  else if c = 'G' then 'g' else if c = 'H' then 'h' else if c = 'I' then 'i'
  else if c = 'J' then 'j' else if c = 'K' then 'k' else if c = 'L' then 'l'
  else if c = 'M' then 'm' else if c = 'N' then 'n' else if c = 'O' then 'o'
  else if c = 'P' then 'p' else if c = 'Q' then 'q' else if c = 'R' then 'r'
  else if c = 'S' then 's' else if c = 'T' then 't' else if c = 'U' then 'u'
  else if c = 'V' then 'v' else if c = 'W' then 'w' else if c = 'X' then 'x'
  else if c = 'Y' then 'y' else if c = 'Z' then 'z'
  else if c = 'Á' then 'á' else if c = 'É' then 'é' else if c = 'Í' then 'í'
  else if c = 'Ó' then 'ó' else if c = 'Ú' then 'ú' else if c = 'Ü' then 'ü'
  else if c = 'Ñ' then 'ñ' else if c = 'À' then 'à' else if c = 'È' then 'è'
  else if c = 'Ì' then 'ì' else if c = 'Ò' then 'ò' else if c = 'Ù' then 'ù'
  else c

/-- Unicode NFD decomposition of the uppercase accented letters produced
by `jsUpper` (the decomposition runs after `toUpperCase` in
`normalizeStreetName`, source order `toUpperCase → normalize('NFD')`).
Other characters decompose to themselves.  Note that `Ñ` really does
decompose to `N` + U+0303 under NFD. -/
def nfdDecomp (c : Char) : List Char :=
  if c = 'Á' then ['A', '́'] else if c = 'É' then ['E', '́']
  else if c = 'Í' then ['I', '́'] else if c = 'Ó' then ['O', '́']
  else if c = 'Ú' then ['U', '́'] else if c = 'Ü' then ['U', '̈']
  else if c = 'Ñ' then ['N', '̃'] else if c = 'À' then ['A', '̀']
  else if c = 'È' then ['E', '̀'] else if c = 'Ì' then ['I', '̀']
  else if c = 'Ò' then ['O', '̀'] else if c = 'Ù' then ['U', '̀']
  else [c]

/-! ## The normalization pipeline (`normalizeStreetName`, lines 248-265) -/

/-- `.normalize('NFD').replace(/[̀-ͯ]/g, '')`: decompose, then
strip combining marks. -/
def nfdStrip (s : List Char) : List Char :=
  ((s.map nfdDecomp).flatten).filter (fun c => !isCombiningMark c)

/-- `.replace(/[,.]/g, '')`. -/
def removePunct (s : List Char) : List Char :=
  s.filter (fun c => !(c = ',' || c = '.'))

/-- `.replace(/\s+/g, ' ')`: each maximal run of whitespace becomes a
single space.  The flag records whether the previous character was
whitespace (so the current run's space has already been emitted). -/
def collapseAux : Bool → List Char → List Char
  | _, [] => []
  | prevWs, c :: r =>
    if isJsWs c then
      if prevWs then collapseAux true r else ' ' :: collapseAux true r
    else c :: collapseAux false r

def collapseWs (s : List Char) : List Char := collapseAux false s

/-- `.trim()`: strip whitespace from both ends. -/
def jsTrim (s : List Char) : List Char :=
  ((s.dropWhile isJsWs).reverse.dropWhile isJsWs).reverse

/-- Steps 2-5 of `normalizeStreetName`: uppercase, NFD + strip marks,
remove commas/periods, collapse whitespace, trim. -/
def toCanonChars (s : List Char) : List Char :=
  jsTrim (collapseWs (removePunct (nfdStrip (s.map jsUpper))))

/-- Case-insensitive token match (regex `/i` flag): if `s` starts with
`tok` up to case folding, return the remainder. -/
def dropTokenCI : List Char → List Char → Option (List Char)
  | [], rest => some rest
  | _ :: _, [] => none
  | t :: ts, c :: cs => if jsUpper c = jsUpper t then dropTokenCI ts cs else none

/-- The `\s+` required after a matched token: the remainder must start
with whitespace, which is then consumed greedily. -/
def afterToken (rest : List Char) : Option (List Char) :=
  match rest with
  | [] => none
  | c :: _ => if isJsWs c then some (rest.dropWhile isJsWs) else none

/-- Try the alternation's tokens in order (regex backtracking order);
each must be followed by `\s+`. -/
def tryTokens : List (List Char) → List Char → Option (List Char)
  | [], _ => none
  | t :: ts, s =>
    match dropTokenCI t s with
    | some rest =>
      match afterToken rest with
      | some r => some r
      | none => tryTokens ts s
    | none => tryTokens ts s

/-- Alternatives of `^(AVENIDA|AV\.?|CALLE|PASAJE|PASEO)\s+` in
backtracking order (`AV\.?` greedily tries `AV.` before `AV`). -/
def streetTypeTokens : List (List Char) :=
  ["AVENIDA".data, "AV.".data, "AV".data, "CALLE".data, "PASAJE".data,
   "PASEO".data]

/-- `n.replace(/^(AVENIDA|AV\.?|CALLE|PASAJE|PASEO)\s+/i, '')`: strip a
single leading street-type token (anchored, non-global). -/
def stripStreetType (s : List Char) : List Char :=
  match tryTokens streetTypeTokens s with
  | some rest => rest
  | none => s

/-- Alternatives of the title regex (line 262) in backtracking order
(`DR\.?` expands to `DR.` then `DR`, `ING\.?` to `ING.` then `ING`). -/
def titleTokens : List (List Char) :=
  ["DOCTOR".data, "DR.".data, "DR".data, "CORONEL".data, "GENERAL".data,
   "TENIENTE".data, "CAPITAN".data, "ALMIRANTE".data, "INGENIERO".data,
   "ING.".data, "ING".data, "PRESIDENTE".data, "DIPUTADO NACIONAL".data,
   "MECANICO MILITAR".data]

/-- One left-to-right pass of
`n.replace(/\b(DOCTOR|DR\.?|...)\s+/gi, '')`.  `prevWord` tracks whether
the previous character of the *original* string was a word character
(`\b` holds at a title only when it is not; when it is, every alternative
starts with a letter and would fail anyway).  After a removal, scanning
resumes right after the consumed whitespace, whose predecessor is
whitespace, hence `prevWord := false`.  Fuel (`s.length` at the top call)
makes the recursion structural. -/
def stripTitlesGo : Nat → Bool → List Char → List Char
  | 0, _, s => s
  | _ + 1, _, [] => []
  | fuel + 1, prevWord, c :: rest =>
    if prevWord then c :: stripTitlesGo fuel (isWordChar c) rest
    else
      match tryTokens titleTokens (c :: rest) with
      | some rest' => stripTitlesGo fuel false rest'
      | none => c :: stripTitlesGo fuel (isWordChar c) rest

def stripTitles (s : List Char) : List Char :=
  stripTitlesGo s.length false s

/-- `normalizeStreetName` (app.js lines 248-265). -/
def normalizeStreetName (name : String) : String :=
  if name = "" then ""
  else ⟨stripTitles (stripStreetType (toCanonChars name.data))⟩

/-! ## Variant generation (`getNameVariants`, lines 268-288) -/

/-- `String.prototype.includes(needle)`: substring containment. -/
def containsSub : List Char → List Char → Bool
  | hay, needle =>
    if needle.isPrefixOf hay then true
    else match hay with
      | [] => false
      | _ :: t => containsSub t needle

/-- `name.split(', ')`: split at every (leftmost, non-overlapping)
occurrence of the two-character separator comma-space. -/
def jsSplitCommaSpaceGo : List Char → List Char → List (List Char)
  | acc, ',' :: ' ' :: rest => acc.reverse :: jsSplitCommaSpaceGo [] rest
  | acc, c :: rest => jsSplitCommaSpaceGo (c :: acc) rest
  | acc, [] => [acc.reverse]

def jsSplitCommaSpace (s : List Char) : List (List Char) :=
  jsSplitCommaSpaceGo [] s

/-- `Set.prototype.add`: append preserving first-insertion order,
collapsing duplicates. -/
def addUnique (l : List String) (x : String) : List String :=
  if x ∈ l then l else l ++ [x]

/-- `getNameVariants` (lines 268-288): the base normalized form; for a
`"Lastname, Firstname"` pattern (exactly two `', '`-separated parts) also
the reordered form; and for any name containing `', '` also the
normalized first part. -/
def getNameVariants (name : String) : List String :=
  let variants := [normalizeStreetName name]
  let variants :=
    if containsSub name.data (", ".data) then
      let parts := jsSplitCommaSpace name.data
      if parts.length = 2 then
        addUnique variants
          (normalizeStreetName ⟨parts.getD 1 [] ++ ' ' :: parts.getD 0 []⟩)
      else variants
    else variants
  let variants :=
    if containsSub name.data (", ".data) then
      addUnique variants
        (normalizeStreetName ⟨(jsSplitCommaSpace name.data).getD 0 []⟩)
    else variants
  variants

/-! ## Historical records and the lookup index
(`loadStreetData`, lines 219-245) -/

/-- A historical record from `calles_buenos_aires_final.json`.  Only
`current_name` takes part in index construction; the narrative fields
(`description`, `legal_basis`; the panel-only `previous_names` and
`wikipedia` payloads are opaque to the core) just give records an
identity. -/
structure Street where
  current_name : String
  description : Option String := none
  legal_basis : Option String := none
deriving DecidableEq

/-- `if (!streetData[variant]) streetData[variant] = street;`
(lines 228-230): insert only when the key is absent. -/
def insertIfAbsent (m : String → Option Street) (k : String) (st : Street) :
    String → Option Street :=
  if (m k).isSome then m
  else fun q => if q = k then some st else m q

/-- The lookup table built by `loadStreetData` (lines 224-232): for each
record in input order, register every variant key, never overwriting. -/
def buildStreetData (streets : List Street) : String → Option Street :=
  streets.foldl
    (fun m street =>
      (getNameVariants street.current_name).foldl
        (fun m v => insertIfAbsent m v street) m)
    (fun _ => none)

/-- `streetData[normalizeStreetName(name)]`: how every display-time and
build-time lookup resolves a geometry name to its record
(lines 312-313, 615-616, 665-666). -/
def historyFor (streets : List Street) (name : String) : Option Street :=
  buildStreetData streets (normalizeStreetName name)

/-! ## The street catalog (`loadStreetsGeoJSON`, lines 291-360) -/

/-- A GeoJSON feature: `feature.properties.name` (absent names are
modelled as `none`) plus an opaque layer handle. -/
structure Feature where
  name : Option String
  layer : Nat
deriving DecidableEq

/-- `if (streetName) { ... streetLayers[streetName].push(layer) ... }`
(lines 310-320): group layer handles by exact display name, skipping
features with absent or empty names. -/
def buildStreetLayers (fs : List Feature) : String → List Nat :=
  fs.foldl
    (fun m f =>
      match f.name with
      | some n =>
        if n = "" then m
        else fun q => if q = n then m q ++ [f.layer] else m q
      | none => m)
    (fun _ => [])

/-- The insertion-ordered de-duplicated name set (`streetNamesSet`,
lines 301, 320). -/
def collectStreetNames (fs : List Feature) : List String :=
  fs.foldl
    (fun acc f =>
      match f.name with
      | some n => if n = "" then acc else addUnique acc n
      | none => acc)
    []

/-- Lexicographic (code-point) comparison of character lists, the order
used by JavaScript's default `Array.prototype.sort` on the BMP strings
of the dataset. -/
def charsLe : List Char → List Char → Bool
  | [], _ => true
  | _ :: _, [] => false
  | a :: as, b :: bs => if a < b then true else if b < a then false else charsLe as bs

def strLe (a b : String) : Bool := charsLe a.data b.data

/-- Insertion sort by `strLe`, modelling `Array.from(set).sort()`
(line 340) on distinct names. -/
def insertSorted (x : String) : List String → List String
  | [] => [x]
  | y :: t => if strLe x y then x :: y :: t else y :: insertSorted x t

def sortStrings (l : List String) : List String :=
  l.foldr insertSorted []

/-- `allStreetNames = Array.from(streetNamesSet).sort()` (line 340). -/
def buildAllStreetNames (fs : List Feature) : List String :=
  sortStrings (collectStreetNames fs)

/-! ## Search (`showSearchResults`, lines 599-627) -/

/-- `CONFIG.MAX_SEARCH_RESULTS` (line 6). -/
def MAX_SEARCH_RESULTS : Nat := 10

/-- The `matches` computation of `showSearchResults` (lines 601-607):
normalize the query once, keep the names whose normalized form contains
it, in catalog order, and truncate with `slice(0, MAX_SEARCH_RESULTS)`. -/
def searchStreets (allStreetNames : List String) (query : String) : List String :=
  (allStreetNames.filter (fun name =>
    containsSub (normalizeStreetName name).data (normalizeStreetName query).data)
  ).take MAX_SEARCH_RESULTS

/-! ## The selection state machine
(`selectStreet` 631-673, `clearHighlightedStreet` 490-503,
`closePanel` 505-511, URL restore 346-356 and 736-749)

Map/DOM/URL side effects are reified as an effect list; the mutable
module state (`highlightedLayer`, `previousStreetName`) becomes an
explicit record. -/

/-- A Leaflet `setStyle` payload, as used at lines 304-307, 323, 495-498,
637-640, 650. -/
structure LineStyle where
  color : String
  weight : Nat
deriving DecidableEq

def COLOR_DEFAULT : String := "#3182ce"
def COLOR_WITH_HISTORY : String := "#38a169"
def COLOR_HIGHLIGHT : String := "#e53e3e"

/-- Tier for streets with no history: initial style (lines 304-307) and
restore style (lines 496-497, 638-639). -/
def styleDefault : LineStyle := ⟨COLOR_DEFAULT, 2⟩

/-- Tier for streets with history (lines 323, 496-497, 638-639). -/
def styleWithHistory : LineStyle := ⟨COLOR_WITH_HISTORY, 3⟩

/-- Highlight tier (line 650). -/
def styleHighlight : LineStyle := ⟨COLOR_HIGHLIGHT, 5⟩

/-- The pre-highlight visual tier of a street: has-history streets are
green/weight 3, others blue/weight 2 (both at initial build and on every
restore). -/
def preStyle (streetData : String → Option Street) (name : String) : LineStyle :=
  if (streetData (normalizeStreetName name)).isSome then styleWithHistory
  else styleDefault

/-- Side effects emitted to the rendering/URL/panel collaborators. -/
inductive MapEffect where
  | setStyle (layer : Nat) (style : LineStyle)
  | fitBounds (layers : List Nat)
  | pushURL (street : Option String)
  | showPanel (street : String) (history : Option Street)
  | hidePanel
deriving DecidableEq

/-- The read-only data built at load time. -/
structure AppData where
  streetData : String → Option Street
  streetLayers : String → List Nat
  allStreetNames : List String

/-- The mutable selection state (`highlightedLayer`,
`previousStreetName`, lines 32 and 629). -/
structure MState where
  highlightedLayer : Option (List Nat)
  previousStreetName : Option String
deriving DecidableEq

/-- The `if (highlightedLayer && previousStreetName)` restore block
shared by `selectStreet` (lines 633-642) and `clearHighlightedStreet`
(lines 491-499): restore the previous street's segments to their
pre-highlight tier.  `previousStreetName === ''` is falsy in JS, hence
the empty-string guard. -/
def prevRestoreFx (cfg : AppData) (st : MState) : List MapEffect :=
  match st.highlightedLayer, st.previousStreetName with
  | some layers, some prev =>
    if prev = "" then []
    else
      layers.map (fun l => MapEffect.setStyle l (preStyle cfg.streetData prev))
  | _, _ => []

/-- `selectStreet(streetName, shouldUpdateURL)` (lines 631-673). -/
def selectStreet (cfg : AppData) (st : MState) (streetName : String)
    (shouldUpdateURL : Bool) : MState × List MapEffect :=
  let clearFx := prevRestoreFx cfg st
  let layers := cfg.streetLayers streetName
  if layers ≠ [] then
    let highlightFx := layers.map (fun l => MapEffect.setStyle l styleHighlight)
    let urlFx := if shouldUpdateURL then [MapEffect.pushURL (some streetName)] else []
    let panelFx := [MapEffect.showPanel streetName
      (cfg.streetData (normalizeStreetName streetName))]
    (⟨some layers, some streetName⟩,
      clearFx ++ highlightFx ++ urlFx ++ [MapEffect.fitBounds layers] ++ panelFx)
  else
    (st, clearFx)

/-- `clearHighlightedStreet` (lines 490-503): restore the previous
street's tier and reset the selection state (only when both state
variables are truthy). -/
def clearHighlightedStreet (cfg : AppData) (st : MState) :
    MState × List MapEffect :=
  match st.highlightedLayer, st.previousStreetName with
  | some layers, some prev =>
    if prev = "" then (st, [])
    else
      (⟨none, none⟩,
        layers.map (fun l => MapEffect.setStyle l (preStyle cfg.streetData prev)))
  | _, _ => (st, [])

/-- `closePanel` (lines 505-511): hide the panel, clear the highlight,
optionally clear the URL. -/
def closePanel (cfg : AppData) (st : MState) (shouldUpdateUrl : Bool) :
    MState × List MapEffect :=
  let (st', fx) := clearHighlightedStreet cfg st
  (st', MapEffect.hidePanel :: fx ++
    (if shouldUpdateUrl then [MapEffect.pushURL none] else []))

/-- Whole-string `toLowerCase`. -/
def jsToLowerStr (s : String) : String := ⟨s.data.map jsLower⟩

/-- The permalink/back-forward match
(lines 350-352 and 739-741): find a catalog name equal to the URL street
up to case. -/
def findRestoreMatch (names : List String) (urlStreet : String) : Option String :=
  names.find? (fun name => jsToLowerStr name = jsToLowerStr urlStreet)

/-- The restore path (lines 346-356, 736-744): select the matched
catalog name without re-pushing the URL; do nothing when no name
matches. -/
def restoreFromURL (cfg : AppData) (st : MState) (urlStreet : String) :
    MState × List MapEffect :=
  match findRestoreMatch cfg.allStreetNames urlStreet with
  | some matched => selectStreet cfg st matched false
  | none => (st, [])

/-! ## Derived observations on effect traces (for the temporal claims) -/

/-- The number of `setStyle layer style` directives in a trace: how often
`layer` is set to exactly `style`. -/
def styleSetCount (trace : List MapEffect) (layer : Nat) (style : LineStyle) : Nat :=
  trace.count (MapEffect.setStyle layer style)

/-- The styles successively applied to one layer by a trace. -/
def stylesFor (trace : List MapEffect) (layer : Nat) : List LineStyle :=
  trace.filterMap (fun e =>
    match e with
    | MapEffect.setStyle l s => if l = layer then some s else none
    | _ => none)

/-- The style a layer is left with after a trace (`none` if untouched). -/
def lastStyleOf (trace : List MapEffect) (layer : Nat) : Option LineStyle :=
  (stylesFor trace layer).getLast?

/-- The full effect trace of the event sequence
`select(a); select(b); clear()` started from the idle state
(`closePanel` being the user-facing clear of lines 505-511). -/
def selectSelectClearTrace (cfg : AppData) (a b : String) : List MapEffect :=
  let r1 := selectStreet cfg ⟨none, none⟩ a true
  let r2 := selectStreet cfg r1.1 b true
  let r3 := closePanel cfg r2.1 true
  r1.2 ++ r2.2 ++ r3.2

/-! ## Canonical-form invariants for the normalization pipeline

To reason about a second application of `normalizeStreetName` we
characterize the strings left fixed by its character pipeline
(steps 2-5): every character survives case folding, NFD, and the
comma/period filter unchanged, whitespace occurs only as single interior
spaces, and there is no leading or trailing space. -/

/-- A character that uppercasing, NFD decomposition and mark stripping
leave unchanged. -/
def baseGood (c : Char) : Bool :=
  (jsUpper c == c) && (nfdDecomp c == [c]) && !isCombiningMark c

/-- A character that the whole character pipeline leaves unchanged:
additionally not a comma/period, and if whitespace then exactly `' '`. -/
def goodChar (c : Char) : Bool :=
  baseGood c && !(c == ',') && !(c == '.') && (!isJsWs c || c == ' ')

/-- Output invariant of `collapseAux`: all characters good, spaces never
doubled (the flag records whether the previous character was a space);
a trailing space is still allowed here. -/
def midAux : Bool → List Char → Bool
  | _, [] => true
  | prevSp, c :: r =>
    goodChar c &&
      (if c = ' ' then !prevSp && midAux true r else midAux false r)

/-- Full canonical form: `midAux` plus no trailing space; called with
flag `true` this also forbids a leading space. -/
def canonAux : Bool → List Char → Bool
  | _, [] => true
  | prevSp, c :: r =>
    goodChar c &&
      (if c = ' ' then !prevSp && !r.isEmpty && canonAux true r
       else canonAux false r)

def canonStr (s : List Char) : Bool := canonAux true s

/-- The right-trim half of `jsTrim`. -/
def backTrim (z : List Char) : List Char :=
  (z.reverse.dropWhile isJsWs).reverse

/-! ## Concrete data used by the witnesses -/

/-- The historical record of the end-to-end test (C6). -/
def bonorinoRecord : Street := ⟨"Coronel Esteban Bonorino", none, none⟩

/-- Concrete app data for the C9 witness. -/
def c9Cfg : AppData := ⟨fun _ => none, fun _ => [], ["Avenida Rivadavia"]⟩

/-- Concrete app data for the C1 counterexample: one street `"A"`
(one segment, no history) is currently selected. -/
def c1Cfg : AppData :=
  ⟨fun _ => none, fun n => if n = "A" then [0] else [], ["A"]⟩

def c1St : MState := ⟨some [0], some "A"⟩

/-- Concrete app data for the C8 witness: street `"A"` (segment 0,
no history) and street `"B"` (segment 1, with history). -/
def c8Cfg : AppData :=
  ⟨fun k => if k = "B" then some ⟨"B", none, none⟩ else none,
   fun n => if n = "A" then [0] else if n = "B" then [1] else [],
   ["A", "B"]⟩

end CallesBA

/-! # Theorems -/

namespace CallesBA

/-! ## General helper lemmas -/

theorem mem_addUnique {l : List String} {x y : String} :
    y ∈ addUnique l x ↔ y ∈ l ∨ y = x := by
  unfold addUnique
  by_cases h : x ∈ l <;> simp [h]
  intro hy; exact hy ▸ h

theorem mem_addUnique_self (l : List String) (x : String) : x ∈ addUnique l x :=
  mem_addUnique.mpr (Or.inr rfl)

theorem mem_addUnique_of_mem {l : List String} {y : String} (x : String)
    (h : y ∈ l) : y ∈ addUnique l x :=
  mem_addUnique.mpr (Or.inl h)

theorem mem_insertSorted {x y : String} : ∀ {l : List String},
    y ∈ insertSorted x l ↔ y = x ∨ y ∈ l := by
  intro l
  induction l with
  | nil => simp [insertSorted]
  | cons a t ih =>
    unfold insertSorted
    by_cases h : strLe x a
    · simp [h]
    · simp [h, ih]
      tauto

theorem mem_sortStrings {y : String} : ∀ {l : List String},
    y ∈ sortStrings l ↔ y ∈ l := by
  intro l
  induction l with
  | nil => simp [sortStrings]
  | cons a t ih =>
    show y ∈ insertSorted a (sortStrings t) ↔ _
    rw [mem_insertSorted]
    simp [ih]

/-! ## C6: end-to-end resolution of "Coronel Esteban Bonorino" -/

/-- **C6.** Loading the historical record with
`current_name = "Coronel Esteban Bonorino"` and a geometry feature named
`"Esteban Bonorino"` yields a catalog entry for `"Esteban Bonorino"`
(present in the sorted name list) whose resolved history is exactly that
record: the title `CORONEL` is stripped on the record side, so the two
names meet on the canonical key `"ESTEBAN BONORINO"`. -/
theorem bonorino_end_to_end :
    "Esteban Bonorino" ∈ buildAllStreetNames [⟨some "Esteban Bonorino", 0⟩] ∧
    historyFor [bonorinoRecord] "Esteban Bonorino" = some bonorinoRecord := by
  decide

/-! ## C10: queries that normalize to the empty string -/

theorem containsSub_nil (hay : List Char) : containsSub hay [] = true := by
  unfold containsSub
  simp [List.isPrefixOf]

/-- **C10.** When the query's normalized form is empty (e.g. `"."`,
`","`, or whitespace-only text), the substring test accepts every name,
so search returns exactly the first `min(limit, N)` catalog names in
catalog order. -/
theorem search_of_empty_normalized_query (names : List String) (query : String)
    (hq : normalizeStreetName query = "") :
    searchStreets names query = names.take MAX_SEARCH_RESULTS ∧
    (searchStreets names query).length = min MAX_SEARCH_RESULTS names.length := by
  have hfilter : names.filter (fun name =>
      containsSub (normalizeStreetName name).data (normalizeStreetName query).data)
      = names := by
    rw [hq]
    show names.filter (fun name => containsSub (normalizeStreetName name).data []) = names
    rw [List.filter_eq_self]
    intro a _
    exact containsSub_nil _
  unfold searchStreets
  rw [hfilter]
  exact ⟨rfl, List.length_take _ _⟩

/-- Witness for C10 at the concrete query `"."` on a two-name catalog. -/
theorem search_of_empty_normalized_query_witness :
    normalizeStreetName "." = "" ∧
    searchStreets ["Callao", "Corrientes"] "." =
      ["Callao", "Corrientes"].take MAX_SEARCH_RESULTS :=
  ⟨by decide,
   (search_of_empty_normalized_query ["Callao", "Corrientes"] "." (by decide)).1⟩

/-! ## C5: search returns the first `min(limit, matches)` names -/

/-- **C5.** On a lexicographically sorted catalog, search keeps exactly
the names whose normalized form contains the normalized query, in
catalog (= lexicographic) order, truncated to the first
`min(limit, number-of-matches)`; in particular the result never exceeds
the limit (10). -/
theorem search_first_matches (names : List String) (query : String)
    (hsorted : names.Pairwise (fun a b => strLe a b = true)) :
    searchStreets names query =
      (names.filter (fun name =>
        containsSub (normalizeStreetName name).data
          (normalizeStreetName query).data)).take MAX_SEARCH_RESULTS ∧
    (searchStreets names query).length =
      min MAX_SEARCH_RESULTS
        ((names.filter (fun name =>
          containsSub (normalizeStreetName name).data
            (normalizeStreetName query).data)).length) ∧
    (searchStreets names query).length ≤ MAX_SEARCH_RESULTS ∧
    (∀ n ∈ searchStreets names query,
      containsSub (normalizeStreetName n).data
        (normalizeStreetName query).data = true ∧ n ∈ names) ∧
    (searchStreets names query).Pairwise (fun a b => strLe a b = true) := by
  refine ⟨rfl, List.length_take _ _, ?_, ?_, ?_⟩
  · unfold searchStreets
    exact List.length_take_le _ _
  · intro n hn
    unfold searchStreets at hn
    have hmemf := List.mem_filter.mp (List.mem_of_mem_take hn)
    exact ⟨hmemf.2, hmemf.1⟩
  · unfold searchStreets
    exact ((hsorted.filter _).sublist (List.take_sublist _ _))

/-- Witness for C5 on a concrete sorted catalog and the query
`"rivad"`: exactly one of the three names matches. -/
theorem search_first_matches_witness :
    (["Avenida Rivadavia", "Callao", "Corrientes"].Pairwise
      (fun a b => strLe a b = true)) ∧
    searchStreets ["Avenida Rivadavia", "Callao", "Corrientes"] "rivad" =
      (["Avenida Rivadavia", "Callao", "Corrientes"].filter (fun name =>
        containsSub (normalizeStreetName name).data
          (normalizeStreetName "rivad").data)).take MAX_SEARCH_RESULTS :=
  ⟨by decide,
   (search_first_matches ["Avenida Rivadavia", "Callao", "Corrientes"] "rivad"
     (by decide)).1⟩

/-! ## C9: permalink restore matches raw names case-insensitively -/

/-- **C9.** On restore (page load or popstate), the shareable-location
string is compared against catalog names by case-insensitive equality of
the raw display name: when some name matches, the restore path selects
exactly the first such catalog name (via `select` with URL re-push
suppressed); when no name matches case-insensitively — even if one would
match after full normalization — no selection is applied and no effect
is emitted. -/
theorem restore_matches_case_insensitively (cfg : AppData) (st : MState)
    (urlStreet : String) :
    (∀ matched, findRestoreMatch cfg.allStreetNames urlStreet = some matched →
      matched ∈ cfg.allStreetNames ∧
      jsToLowerStr matched = jsToLowerStr urlStreet ∧
      restoreFromURL cfg st urlStreet = selectStreet cfg st matched false) ∧
    (findRestoreMatch cfg.allStreetNames urlStreet = none →
      (∀ n ∈ cfg.allStreetNames, jsToLowerStr n ≠ jsToLowerStr urlStreet) ∧
      restoreFromURL cfg st urlStreet = (st, [])) := by
  constructor
  · intro matched hm
    refine ⟨List.mem_of_find?_eq_some hm, ?_, ?_⟩
    · have := List.find?_some hm
      simpa using this
    · unfold restoreFromURL
      rw [hm]
  · intro hnone
    constructor
    · intro n hn
      have := List.find?_eq_none.mp hnone n hn
      simpa using this
    · unfold restoreFromURL
      rw [hnone]

/-- Witness for C9: the URL string `"avenida rivadavia"` matches the
catalog name `"Avenida Rivadavia"` case-insensitively. -/
theorem restore_matches_case_insensitively_witness :
    findRestoreMatch c9Cfg.allStreetNames "avenida rivadavia" =
      some "Avenida Rivadavia" ∧
    ("Avenida Rivadavia" ∈ c9Cfg.allStreetNames ∧
     jsToLowerStr "Avenida Rivadavia" = jsToLowerStr "avenida rivadavia" ∧
     restoreFromURL c9Cfg ⟨none, none⟩ "avenida rivadavia" =
       selectStreet c9Cfg ⟨none, none⟩ "Avenida Rivadavia" false) :=
  ⟨by decide,
   (restore_matches_case_insensitively c9Cfg ⟨none, none⟩ "avenida rivadavia").1
     "Avenida Rivadavia" (by decide)⟩

/-! ## C4: first historical record registered for a key wins -/

theorem insertIfAbsent_eval (m : String → Option Street) (k : String)
    (st : Street) (q : String) :
    insertIfAbsent m k st q = if m k = none ∧ q = k then some st else m q := by
  unfold insertIfAbsent
  cases h : m k with
  | none => by_cases hq : q = k <;> simp [h, hq]
  | some v => simp [h]

theorem variantsFold_eval (st : Street) : ∀ (vs : List String)
    (m : String → Option Street) (q : String),
    (vs.foldl (fun m v => insertIfAbsent m v st) m) q =
    if m q = none ∧ q ∈ vs then some st else m q := by
  intro vs
  induction vs with
  | nil => intro m q; simp
  | cons v vs ih =>
    intro m q
    rw [List.foldl_cons, ih]
    rw [insertIfAbsent_eval]
    by_cases hq : m q = none
    · by_cases hqv : q = v
      · subst hqv
        simp [hq]
      · by_cases hmem : q ∈ vs <;> simp [hq, hqv, hmem]
    · have hv : ¬(m v = none ∧ q = v) ∨ True := Or.inr trivial
      by_cases hqv : q = v
      · subst hqv
        simp [hq]
      · simp [hq, hqv]

/-- The double fold of `loadStreetData` evaluated at a key: the initial
map's binding wins, otherwise the first record whose variants contain the
key. -/
theorem buildFold_eval (q : String) : ∀ (streets : List Street)
    (m : String → Option Street),
    (streets.foldl
      (fun m street =>
        (getNameVariants street.current_name).foldl
          (fun m v => insertIfAbsent m v street) m) m) q =
    Option.or (m q)
      (streets.find? (fun s => decide (q ∈ getNameVariants s.current_name))) := by
  intro streets
  induction streets with
  | nil => intro m; simp
  | cons s ss ih =>
    intro m
    rw [List.foldl_cons, ih, variantsFold_eval]
    by_cases hq : m q = none
    · by_cases hv : q ∈ getNameVariants s.current_name
      · simp [hq, hv, List.find?_cons_of_pos]
      · simp [hq, hv, List.find?_cons_of_neg]
    · cases h : m q with
      | none => exact absurd h hq
      | some x => simp [h]

theorem buildStreetData_eq_find (streets : List Street) (q : String) :
    buildStreetData streets q =
    streets.find? (fun s => decide (q ∈ getNameVariants s.current_name)) := by
  unfold buildStreetData
  rw [buildFold_eval]
  simp

/-- `find?` returns the first element satisfying the predicate. -/
theorem find_first_characterization {α : Type} (p : α → Bool) :
    ∀ (l : List α) (r : α), l.find? p = some r →
    ∃ n, l[n]? = some r ∧ p r = true ∧
      ∀ (m : Nat) (x : α), m < n → l[m]? = some x → p x = false := by
  intro l
  induction l with
  | nil => intro r hr; simp at hr
  | cons a t ih =>
    intro r hr
    by_cases hpa : p a = true
    · rw [List.find?_cons_of_pos _ hpa] at hr
      obtain rfl := Option.some.inj hr
      exact ⟨0, by simp, hpa,
        fun m x hm => absurd hm (Nat.not_lt_zero m)⟩
    · rw [List.find?_cons_of_neg _ hpa] at hr
      obtain ⟨n, h1, h2, h3⟩ := ih r hr
      refine ⟨n + 1, by simpa using h1, h2, ?_⟩
      intro m x hm hx
      cases m with
      | zero =>
        simp at hx
        subst hx
        simpa using hpa
      | succ m' =>
        exact h3 m' x (by omega) (by simpa using hx)

/-- **C4.** For every record sequence and key, `buildStreetData` returns
the record appearing first in input order whose variant set contains the
key: in a collision (records at positions `i < j` both generating the
key) the result is registered at some position `≤ i` and no earlier
record generates the key — the later record is never returned through
that key. -/
theorem buildStreetData_first_wins (streets : List Street) (k : String)
    (i j : Nat) (ri rj : Street)
    (hij : i < j) (hi : streets[i]? = some ri) (hj : streets[j]? = some rj)
    (hki : k ∈ getNameVariants ri.current_name)
    (hkj : k ∈ getNameVariants rj.current_name) :
    ∃ (r : Street) (i0 : Nat),
      buildStreetData streets k = some r ∧
      streets[i0]? = some r ∧ i0 ≤ i ∧
      k ∈ getNameVariants r.current_name ∧
      ∀ (m : Nat) (x : Street), m < i0 → streets[m]? = some x →
        k ∉ getNameVariants x.current_name := by
  have hmem : ri ∈ streets := List.getElem?_mem hi
  have hsome : (streets.find?
      (fun s => decide (k ∈ getNameVariants s.current_name))).isSome := by
    rw [List.find?_isSome]
    exact ⟨ri, hmem, by simpa using hki⟩
  obtain ⟨r, hr⟩ := Option.isSome_iff_exists.mp hsome
  obtain ⟨n, h1, h2, h3⟩ := find_first_characterization _ streets r hr
  refine ⟨r, n, ?_, h1, ?_, by simpa using h2, ?_⟩
  · rw [buildStreetData_eq_find]
    exact hr
  · by_contra hle
    push_neg at hle
    have := h3 i ri hle hi
    simp at this
    exact this hki
  · intro m x hm hx hkx
    have := h3 m x hm hx
    simp at this
    exact this hkx

/-- Witness for C4: two records whose variant sets collide on the key
`"EDUARDO ACEVEDO"` (`"Acevedo, Eduardo"` reordered vs. the literal
`"Eduardo Acevedo"`); lookup must resolve to the first. -/
theorem buildStreetData_first_wins_witness :
    (0 : Nat) < 1 ∧
    ∃ (r : Street) (i0 : Nat),
      buildStreetData [⟨"Acevedo, Eduardo", some "first", none⟩,
        ⟨"Eduardo Acevedo", some "second", none⟩] "EDUARDO ACEVEDO" = some r ∧
      [⟨"Acevedo, Eduardo", some "first", none⟩,
        (⟨"Eduardo Acevedo", some "second", none⟩ : Street)][i0]? = some r ∧
      i0 ≤ 0 ∧
      "EDUARDO ACEVEDO" ∈ getNameVariants r.current_name ∧
      ∀ (m : Nat) (x : Street), m < i0 →
        [⟨"Acevedo, Eduardo", some "first", none⟩,
          (⟨"Eduardo Acevedo", some "second", none⟩ : Street)][m]? = some x →
        "EDUARDO ACEVEDO" ∉ getNameVariants x.current_name :=
  ⟨by decide,
   buildStreetData_first_wins
     [⟨"Acevedo, Eduardo", some "first", none⟩,
      ⟨"Eduardo Acevedo", some "second", none⟩]
     "EDUARDO ACEVEDO" 0 1
     ⟨"Acevedo, Eduardo", some "first", none⟩
     ⟨"Eduardo Acevedo", some "second", none⟩
     (by decide) (by decide) (by decide) (by decide) (by decide)⟩

/-! ## C7: geometry names without a matching record stay in the catalog -/

theorem collectStreetNames_aux_mono (x : String) : ∀ (fs : List Feature)
    (acc : List String), x ∈ acc →
    x ∈ fs.foldl (fun acc f =>
      match f.name with
      | some n => if n = "" then acc else addUnique acc n
      | none => acc) acc := by
  intro fs
  induction fs with
  | nil => intro acc h; simpa using h
  | cons f fs ih =>
    intro acc h
    rw [List.foldl_cons]
    apply ih
    cases hn : f.name with
    | none => simpa using h
    | some n =>
      by_cases hne : n = "" <;> simp [hne]
      · exact h
      · exact mem_addUnique_of_mem n h

theorem mem_collectStreetNames {fs : List Feature} {f : Feature} {n : String}
    (hf : f ∈ fs) (hname : f.name = some n) (hne : n ≠ "") :
    n ∈ collectStreetNames fs := by
  unfold collectStreetNames
  generalize hacc : ([] : List String) = acc
  clear hacc
  induction fs generalizing acc with
  | nil => simp at hf
  | cons g gs ih =>
    rw [List.foldl_cons]
    rcases List.mem_cons.mp hf with hfg | hftail
    · subst hfg
      rw [hname]
      simp [hne]
      exact collectStreetNames_aux_mono n gs _ (mem_addUnique_self _ n)
    · exact ih hftail _

theorem buildStreetLayers_aux_mono (n : String) : ∀ (fs : List Feature)
    (m : String → List Nat), m n ≠ [] →
    (fs.foldl (fun m f =>
      match f.name with
      | some q =>
        if q = "" then m
        else fun k => if k = q then m k ++ [f.layer] else m k
      | none => m) m) n ≠ [] := by
  intro fs
  induction fs with
  | nil => intro m h; simpa using h
  | cons f fs ih =>
    intro m h
    rw [List.foldl_cons]
    apply ih
    cases hn : f.name with
    | none => simpa using h
    | some q =>
      by_cases hq : q = "" <;> simp [hq]
      · exact h
      · by_cases hk : n = q
        · simp [hk]
        · simpa [hk] using h

theorem buildStreetLayers_ne_nil {fs : List Feature} {f : Feature} {n : String}
    (hf : f ∈ fs) (hname : f.name = some n) (hne : n ≠ "") :
    buildStreetLayers fs n ≠ [] := by
  unfold buildStreetLayers
  generalize hacc : (fun _ => [] : String → List Nat) = m
  clear hacc
  induction fs generalizing m with
  | nil => simp at hf
  | cons g gs ih =>
    rw [List.foldl_cons]
    rcases List.mem_cons.mp hf with hfg | hftail
    · subst hfg
      rw [hname]
      simp [hne]
      apply buildStreetLayers_aux_mono
      by_cases hk : n = n <;> simp [hk]
    · exact ih hftail _

/-- **C7.** A geometry feature whose display name resolves to no key in
the historical index is still retained by the catalog build: the name
appears in the sorted `allNames` list and keeps a non-empty segment
list, with its history absent — a defined outcome, not an error. -/
theorem unresolved_name_retained (records : List Street) (fs : List Feature)
    (f : Feature) (n : String)
    (hf : f ∈ fs) (hname : f.name = some n) (hne : n ≠ "")
    (hmiss : historyFor records n = none) :
    n ∈ buildAllStreetNames fs ∧
    buildStreetLayers fs n ≠ [] ∧
    historyFor records n = none := by
  refine ⟨?_, buildStreetLayers_ne_nil hf hname hne, hmiss⟩
  unfold buildAllStreetNames
  rw [mem_sortStrings]
  exact mem_collectStreetNames hf hname hne

/-- Witness for C7: the single geometry feature `"Pasaje Zelada"` with an
empty record list. -/
theorem unresolved_name_retained_witness :
    ((Feature.mk (some "Pasaje Zelada") 7) ∈ [Feature.mk (some "Pasaje Zelada") 7]) ∧
    ("Pasaje Zelada" ∈ buildAllStreetNames [Feature.mk (some "Pasaje Zelada") 7] ∧
     buildStreetLayers [Feature.mk (some "Pasaje Zelada") 7] "Pasaje Zelada" ≠ [] ∧
     historyFor [] "Pasaje Zelada" = none) :=
  ⟨by decide,
   unresolved_name_retained [] [Feature.mk (some "Pasaje Zelada") 7]
     (Feature.mk (some "Pasaje Zelada") 7) "Pasaje Zelada"
     (by decide) (by decide) (by decide) (by decide)⟩

/-! ## C1: selecting an unknown name (corrected) -/

theorem preStyle_ne_highlight (sd : String → Option Street) (n : String) :
    preStyle sd n ≠ styleHighlight := by
  unfold preStyle
  split <;> decide

/-- **C1, counterexample.** Selecting a name with no segments from a
`Selected` state is *not* free of visual side effects: the previous
selection's segment is restyled (demoted from the highlight tier), even
though the selection state itself does not change.  This refutes the
claim that no visual-weight side effect is emitted. -/
theorem select_unknown_emits_restyle :
    c1Cfg.streetLayers "ZZZ" = [] ∧
    (selectStreet c1Cfg c1St "ZZZ" true).2 = [MapEffect.setStyle 0 styleDefault] ∧
    (selectStreet c1Cfg c1St "ZZZ" true).2 ≠ [] := by
  decide

/-- **C1 (amended).** Selecting a name with no segments in the catalog
never changes the selection state and never emits viewport-framing, URL,
or panel side effects; from the idle state it emits nothing at all, but
from a `Selected` state it emits (only) restyle directives that put the
previous selection's segments back to a non-highlight tier. -/
theorem select_unknown_no_state_change (cfg : AppData) (st : MState)
    (name : String) (shouldUpdateURL : Bool)
    (h : cfg.streetLayers name = []) :
    (selectStreet cfg st name shouldUpdateURL).1 = st ∧
    (∀ e ∈ (selectStreet cfg st name shouldUpdateURL).2,
      ∃ l s, e = MapEffect.setStyle l s ∧ s ≠ styleHighlight) ∧
    (st.highlightedLayer = none ∨ st.previousStreetName = none →
      (selectStreet cfg st name shouldUpdateURL).2 = []) := by
  have hsel : selectStreet cfg st name shouldUpdateURL = (st, prevRestoreFx cfg st) := by
    unfold selectStreet
    simp [h]
  rw [hsel]
  refine ⟨rfl, ?_, ?_⟩
  · intro e he
    unfold prevRestoreFx at he
    rcases st with ⟨hl, pv⟩
    cases hl with
    | none => simp at he
    | some layers =>
      cases pv with
      | none => simp at he
      | some prev =>
        simp only at he
        by_cases hp : prev = ""
        · simp [hp] at he
        · simp [hp] at he
          obtain ⟨l, _, rfl⟩ := he
          exact ⟨l, _, rfl, preStyle_ne_highlight _ _⟩
  · intro hidle
    unfold prevRestoreFx
    rcases st with ⟨hl, pv⟩
    rcases hidle with h1 | h2
    · simp at h1
      subst h1
      simp
    · simp at h2
      subst h2
      cases hl <;> simp

/-- Witness for C1 (amended) at a concrete `Selected` state and unknown
name. -/
theorem select_unknown_no_state_change_witness :
    c1Cfg.streetLayers "ZZZ" = [] ∧
    ((selectStreet c1Cfg c1St "ZZZ" true).1 = c1St ∧
     (∀ e ∈ (selectStreet c1Cfg c1St "ZZZ" true).2,
       ∃ l s, e = MapEffect.setStyle l s ∧ s ≠ styleHighlight) ∧
     (c1St.highlightedLayer = none ∨ c1St.previousStreetName = none →
       (selectStreet c1Cfg c1St "ZZZ" true).2 = [])) :=
  ⟨by decide,
   select_unknown_no_state_change c1Cfg c1St "ZZZ" true (by decide)⟩

/-! ## C2: variants of names containing the separator (corrected) -/

theorem containsSub_cons_eq (c : Char) (t needle : List Char) :
    containsSub (c :: t) needle =
    (needle.isPrefixOf (c :: t) || containsSub t needle) := by
  conv =>
    lhs
    unfold containsSub
  by_cases h : needle.isPrefixOf (c :: t) <;> simp [h]

theorem containsSub_sep (b : List Char) : ∀ (a : List Char),
    containsSub (a ++ ',' :: ' ' :: b) [',', ' '] = true := by
  intro a
  induction a with
  | nil =>
    unfold containsSub
    simp [List.isPrefixOf]
  | cons c a ih =>
    rw [List.cons_append, containsSub_cons_eq]
    simp [ih]

theorem containsSub_of_cons {c : Char} {t needle : List Char}
    (h : containsSub (c :: t) needle = false) : containsSub t needle = false := by
  rw [containsSub_cons_eq] at h
  exact (Bool.or_eq_false_iff.mp h).2

theorem jsSplitGo_sep (acc rest : List Char) :
    jsSplitCommaSpaceGo acc (',' :: ' ' :: rest) =
    acc.reverse :: jsSplitCommaSpaceGo [] rest := rfl

theorem jsSplitGo_cons (acc : List Char) (c : Char) (rest : List Char)
    (h : ¬(c = ',' ∧ rest.head? = some ' ')) :
    jsSplitCommaSpaceGo acc (c :: rest) = jsSplitCommaSpaceGo (c :: acc) rest := by
  conv =>
    lhs
    rw [jsSplitCommaSpaceGo.eq_def]
  split
  · rename_i heq
    injection heq with h1 h2
    exact absurd ⟨h1, by rw [h2]; rfl⟩ h
  · rename_i heq
    rw [List.cons.injEq] at heq
    rw [← heq.1, ← heq.2]
  · rename_i heq
    exact absurd heq (by simp)

/-- A separator-free tail is returned as a single final piece. -/
theorem jsSplitGo_noSep : ∀ (b acc : List Char),
    containsSub b [',', ' '] = false →
    jsSplitCommaSpaceGo acc b = [acc.reverse ++ b] := by
  intro b
  induction b with
  | nil =>
    intro acc _
    simp [jsSplitCommaSpaceGo]
  | cons c b ih =>
    intro acc hb
    have hb' : containsSub b [',', ' '] = false := containsSub_of_cons hb
    have hnp : ¬(c = ',' ∧ b.head? = some ' ') := by
      rintro ⟨rfl, hh⟩
      cases b with
      | nil => simp at hh
      | cons d b' =>
        simp at hh
        subst hh
        rw [containsSub_cons_eq] at hb
        simp [List.isPrefixOf] at hb
    rw [jsSplitGo_cons acc c b hnp, ih _ hb']
    simp

/-- Scanning a separator-free chunk: the splitter carries it into the
accumulator until the separator that follows it. -/
theorem jsSplitGo_chunk (b : List Char) : ∀ (a acc : List Char),
    containsSub a [',', ' '] = false →
    jsSplitCommaSpaceGo acc (a ++ ',' :: ' ' :: b) =
      (acc.reverse ++ a) :: jsSplitCommaSpaceGo [] b := by
  intro a
  induction a with
  | nil =>
    intro acc _
    simp [jsSplitGo_sep]
  | cons c a ih =>
    intro acc ha
    have ha' : containsSub a [',', ' '] = false := containsSub_of_cons ha
    rw [List.cons_append]
    have hnp : ¬(c = ',' ∧ (a ++ ',' :: ' ' :: b).head? = some ' ') := by
      rintro ⟨rfl, hh⟩
      cases a with
      | nil => simp at hh
      | cons d a' =>
        simp at hh
        subst hh
        rw [containsSub_cons_eq] at ha
        simp [List.isPrefixOf] at ha
    rw [jsSplitGo_cons acc c _ hnp, ih _ ha']
    simp

/-- `split(', ')` on a name with exactly one separator occurrence yields
exactly the two flanking parts. -/
theorem jsSplit_two_parts (a b : List Char)
    (ha : containsSub a [',', ' '] = false)
    (hb : containsSub b [',', ' '] = false) :
    jsSplitCommaSpace (a ++ ',' :: ' ' :: b) = [a, b] := by
  unfold jsSplitCommaSpace
  rw [jsSplitGo_chunk b a [] ha, jsSplitGo_noSep b [] hb]
  simp

/-- **C2, counterexample.** For a name with more than two
comma-separated parts the code adds *no* reordered variant: splitting
`"A, B, C"` at every separator yields three parts, the
`parts.length === 2` guard fails, and the claimed reordered form
`normalize("B, C" + " " + "A") = "B C A"` is absent from the variant
set (which is exactly `["A B C", "A"]`). -/
theorem variants_multi_comma_no_reorder :
    getNameVariants "A, B, C" = ["A B C", "A"] ∧
    normalizeStreetName ("B, C" ++ " " ++ "A") = "B C A" ∧
    normalizeStreetName ("B, C" ++ " " ++ "A") ∉ getNameVariants "A, B, C" := by
  decide

/-- **C2 (amended).** For a raw name containing exactly one occurrence
of the separator `", "` (so that splitting at every occurrence yields
exactly two parts), the variant set contains the base form, the
reordered form `normalize(secondPart + " " + firstPart)`, and the
surname-only form `normalize(firstPart)`.  (Names with more than two
comma-separated parts only get the base and surname-only forms.) -/
theorem variants_of_two_part_name (a b : String)
    (ha : containsSub a.data [',', ' '] = false)
    (hb : containsSub b.data [',', ' '] = false) :
    normalizeStreetName (a ++ ", " ++ b) ∈ getNameVariants (a ++ ", " ++ b) ∧
    normalizeStreetName (b ++ " " ++ a) ∈ getNameVariants (a ++ ", " ++ b) ∧
    normalizeStreetName a ∈ getNameVariants (a ++ ", " ++ b) := by
  have hdata : (a ++ ", " ++ b).data = a.data ++ ',' :: ' ' :: b.data := by
    show (a.data ++ (", ".data)) ++ b.data = _
    simp
  have hcont : containsSub (a ++ ", " ++ b).data (", ".data) = true := by
    rw [show ((", ").data) = [',', ' '] from rfl, hdata]
    exact containsSub_sep b.data a.data
  have hsplit : jsSplitCommaSpace (a ++ ", " ++ b).data = [a.data, b.data] := by
    rw [hdata]
    exact jsSplit_two_parts a.data b.data ha hb
  have hrev : (⟨b.data ++ ' ' :: a.data⟩ : String) = b ++ " " ++ a := by
    have : (b ++ " " ++ a).data = b.data ++ ' ' :: a.data := by
      show (b.data ++ (" ".data)) ++ a.data = _
      simp
    rw [← this]
  have hfirst : (⟨a.data⟩ : String) = a := rfl
  unfold getNameVariants
  rw [hcont, hsplit]
  simp only [List.length_cons, List.length_nil, List.getD]
  norm_num
  rw [hrev, hfirst]
  refine ⟨?_, ?_, ?_⟩
  · exact mem_addUnique_of_mem _ (mem_addUnique_of_mem _ (by simp))
  · exact mem_addUnique_of_mem _ (mem_addUnique_self _ _)
  · exact mem_addUnique_self _ _

/-- Witness for C2 (amended) on the spec's own example
`"Acevedo, Eduardo"`. -/
theorem variants_of_two_part_name_witness :
    containsSub ("Acevedo").data [',', ' '] = false ∧
    (normalizeStreetName ("Acevedo" ++ ", " ++ "Eduardo") ∈
       getNameVariants ("Acevedo" ++ ", " ++ "Eduardo") ∧
     normalizeStreetName ("Eduardo" ++ " " ++ "Acevedo") ∈
       getNameVariants ("Acevedo" ++ ", " ++ "Eduardo") ∧
     normalizeStreetName "Acevedo" ∈
       getNameVariants ("Acevedo" ++ ", " ++ "Eduardo")) :=
  ⟨by decide,
   variants_of_two_part_name "Acevedo" "Eduardo" (by decide) (by decide)⟩

/-! ## C8: select → select → clear restores both tiers exactly once -/

theorem stylesFor_append (t1 t2 : List MapEffect) (l : Nat) :
    stylesFor (t1 ++ t2) l = stylesFor t1 l ++ stylesFor t2 l := by
  unfold stylesFor
  rw [List.filterMap_append]

theorem stylesFor_map_setStyle (xs : List Nat) (sty : LineStyle) (l : Nat) :
    stylesFor (xs.map (fun x => MapEffect.setStyle x sty)) l =
    xs.filterMap (fun x => if x = l then some sty else none) := by
  unfold stylesFor
  rw [List.filterMap_map]
  rfl

theorem filterMap_ifeq_of_not_mem {xs : List Nat} {l : Nat} (sty : LineStyle)
    (hm : l ∉ xs) :
    xs.filterMap (fun x => if x = l then some sty else none) = [] := by
  induction xs with
  | nil => rfl
  | cons x t ih =>
    have hx : x ≠ l := fun h => hm (h ▸ List.mem_cons_self x t)
    rw [List.filterMap_cons]
    simp only [hx, if_false]
    exact ih (fun h => hm (List.mem_cons_of_mem x h))

theorem filterMap_ifeq_of_mem {xs : List Nat} {l : Nat} (sty : LineStyle)
    (hnd : xs.Nodup) (hm : l ∈ xs) :
    xs.filterMap (fun x => if x = l then some sty else none) = [sty] := by
  induction xs with
  | nil => simp at hm
  | cons x t ih =>
    rw [List.filterMap_cons]
    by_cases hx : x = l
    · subst hx
      have hnt : x ∉ t := List.Nodup.not_mem hnd
      simp [filterMap_ifeq_of_not_mem sty hnt]
    · simp only [hx, if_false]
      have hm' : l ∈ t := by
        rcases List.mem_cons.mp hm with h | h
        · exact absurd h.symm hx
        · exact h
      exact ih hnd.of_cons hm'

theorem styleSetCount_eq (trace : List MapEffect) (l : Nat) (sty : LineStyle) :
    styleSetCount trace l sty = (stylesFor trace l).count sty := by
  induction trace with
  | nil => rfl
  | cons e t ih =>
    unfold styleSetCount at ih ⊢
    unfold stylesFor at ih ⊢
    cases e with
    | setStyle l' s =>
      by_cases hl : l' = l
      · subst hl
        by_cases hs : s = sty
        · subst hs
          simp [List.count_cons, List.filterMap_cons, ih]
        · have hne : MapEffect.setStyle l' s ≠ MapEffect.setStyle l' sty := by
            intro hcon
            injection hcon with _ h2
            exact hs h2
          simp [List.count_cons, List.filterMap_cons, ih, hs, hne]
      · have hne : MapEffect.setStyle l' s ≠ MapEffect.setStyle l sty := by
          intro hcon
          injection hcon with h1 _
          exact hl h1
        simp [List.count_cons, List.filterMap_cons, ih, hl, hne]
    | fitBounds xs => simp [List.count_cons, List.filterMap_cons, ih]
    | pushURL u => simp [List.count_cons, List.filterMap_cons, ih]
    | showPanel n h => simp [List.count_cons, List.filterMap_cons, ih]
    | hidePanel => simp [List.count_cons, List.filterMap_cons, ih]

/-- The explicit trace of `select(a); select(b); clear()` when both
names have segments and neither is empty. -/
theorem selectSelectClearTrace_eq (cfg : AppData) (a b : String)
    (ha : cfg.streetLayers a ≠ []) (hb : cfg.streetLayers b ≠ [])
    (ha2 : a ≠ "") (hb2 : b ≠ "") :
    selectSelectClearTrace cfg a b =
      ((cfg.streetLayers a).map (fun l => MapEffect.setStyle l styleHighlight) ++
        [MapEffect.pushURL (some a)] ++ [MapEffect.fitBounds (cfg.streetLayers a)] ++
        [MapEffect.showPanel a (cfg.streetData (normalizeStreetName a))]) ++
      (((cfg.streetLayers a).map
          (fun l => MapEffect.setStyle l (preStyle cfg.streetData a))) ++
        ((cfg.streetLayers b).map (fun l => MapEffect.setStyle l styleHighlight) ++
          [MapEffect.pushURL (some b)] ++
          [MapEffect.fitBounds (cfg.streetLayers b)] ++
          [MapEffect.showPanel b (cfg.streetData (normalizeStreetName b))])) ++
      (MapEffect.hidePanel ::
        ((cfg.streetLayers b).map
          (fun l => MapEffect.setStyle l (preStyle cfg.streetData b)) ++
          [MapEffect.pushURL none])) := by
  unfold selectSelectClearTrace selectStreet closePanel clearHighlightedStreet
    prevRestoreFx
  simp [ha, hb, ha2, hb2]

/-- **C8.** After `select(a); select(b); clear()` on two distinct valid
catalog names (non-empty, with pairwise-distinct disjoint segment
lists), every segment of `a` and of `b` is set back to its pre-highlight
tier (has-history vs default) exactly once, every such segment ends on
its pre-highlight tier, and no segment at all is left on the highlight
tier. -/
theorem select_select_clear_restores (cfg : AppData) (a b : String)
    (ha : cfg.streetLayers a ≠ []) (hb : cfg.streetLayers b ≠ [])
    (ha2 : a ≠ "") (hb2 : b ≠ "")
    (hnda : (cfg.streetLayers a).Nodup) (hndb : (cfg.streetLayers b).Nodup)
    (hdisj : ∀ l ∈ cfg.streetLayers a, l ∉ cfg.streetLayers b) :
    (∀ l ∈ cfg.streetLayers a,
      styleSetCount (selectSelectClearTrace cfg a b) l (preStyle cfg.streetData a) = 1 ∧
      lastStyleOf (selectSelectClearTrace cfg a b) l =
        some (preStyle cfg.streetData a)) ∧
    (∀ l ∈ cfg.streetLayers b,
      styleSetCount (selectSelectClearTrace cfg a b) l (preStyle cfg.streetData b) = 1 ∧
      lastStyleOf (selectSelectClearTrace cfg a b) l =
        some (preStyle cfg.streetData b)) ∧
    (∀ l : Nat, lastStyleOf (selectSelectClearTrace cfg a b) l ≠
      some styleHighlight) := by
  have htr := selectSelectClearTrace_eq cfg a b ha hb ha2 hb2
  have hstyles : ∀ l : Nat, stylesFor (selectSelectClearTrace cfg a b) l =
      (cfg.streetLayers a).filterMap
        (fun x => if x = l then some styleHighlight else none) ++
      ((cfg.streetLayers a).filterMap
        (fun x => if x = l then some (preStyle cfg.streetData a) else none) ++
       (cfg.streetLayers b).filterMap
        (fun x => if x = l then some styleHighlight else none)) ++
      (cfg.streetLayers b).filterMap
        (fun x => if x = l then some (preStyle cfg.streetData b) else none) := by
    intro l
    rw [htr]
    rw [stylesFor_append, stylesFor_append]
    rw [show stylesFor (MapEffect.hidePanel ::
        ((cfg.streetLayers b).map
          (fun x => MapEffect.setStyle x (preStyle cfg.streetData b)) ++
          [MapEffect.pushURL none])) l =
        stylesFor ((cfg.streetLayers b).map
          (fun x => MapEffect.setStyle x (preStyle cfg.streetData b)) ++
          [MapEffect.pushURL none]) l from rfl]
    simp only [stylesFor_append, stylesFor_map_setStyle]
    have hurl : ∀ u, stylesFor [MapEffect.pushURL u] l = [] := fun _ => rfl
    have hfit : ∀ xs, stylesFor [MapEffect.fitBounds xs] l = [] := fun _ => rfl
    have hpanel : ∀ n h, stylesFor [MapEffect.showPanel n h] l = [] :=
      fun _ _ => rfl
    simp [hurl, hfit, hpanel]
  have hhiA : styleHighlight ≠ preStyle cfg.streetData a :=
    fun h => preStyle_ne_highlight cfg.streetData a h.symm
  have hhiB : styleHighlight ≠ preStyle cfg.streetData b :=
    fun h => preStyle_ne_highlight cfg.streetData b h.symm
  refine ⟨?_, ?_, ?_⟩
  · intro l hl
    have hnb : l ∉ cfg.streetLayers b := hdisj l hl
    have hs : stylesFor (selectSelectClearTrace cfg a b) l =
        [styleHighlight, preStyle cfg.streetData a] := by
      rw [hstyles l, filterMap_ifeq_of_mem _ hnda hl,
        filterMap_ifeq_of_mem _ hnda hl, filterMap_ifeq_of_not_mem _ hnb,
        filterMap_ifeq_of_not_mem _ hnb]
      rfl
    constructor
    · rw [styleSetCount_eq, hs]
      simp [List.count_cons, hhiA.symm]
    · unfold lastStyleOf
      rw [hs]
      rfl
  · intro l hl
    have hna : l ∉ cfg.streetLayers a := fun h => hdisj l h hl
    have hs : stylesFor (selectSelectClearTrace cfg a b) l =
        [styleHighlight, preStyle cfg.streetData b] := by
      rw [hstyles l, filterMap_ifeq_of_mem _ hndb hl,
        filterMap_ifeq_of_mem _ hndb hl, filterMap_ifeq_of_not_mem _ hna,
        filterMap_ifeq_of_not_mem _ hna]
      rfl
    constructor
    · rw [styleSetCount_eq, hs]
      simp [List.count_cons, hhiB.symm]
    · unfold lastStyleOf
      rw [hs]
      rfl
  · intro l
    by_cases hla : l ∈ cfg.streetLayers a
    · have hnb : l ∉ cfg.streetLayers b := hdisj l hla
      unfold lastStyleOf
      rw [hstyles l, filterMap_ifeq_of_mem _ hnda hla,
        filterMap_ifeq_of_mem _ hnda hla, filterMap_ifeq_of_not_mem _ hnb,
        filterMap_ifeq_of_not_mem _ hnb]
      intro hcon
      simp at hcon
      exact hhiA hcon.symm
    · by_cases hlb : l ∈ cfg.streetLayers b
      · unfold lastStyleOf
        rw [hstyles l, filterMap_ifeq_of_mem _ hndb hlb,
          filterMap_ifeq_of_mem _ hndb hlb, filterMap_ifeq_of_not_mem _ hla,
          filterMap_ifeq_of_not_mem _ hla]
        intro hcon
        simp at hcon
        exact hhiB hcon.symm
      · unfold lastStyleOf
        rw [hstyles l, filterMap_ifeq_of_not_mem _ hla,
          filterMap_ifeq_of_not_mem _ hla, filterMap_ifeq_of_not_mem _ hlb,
          filterMap_ifeq_of_not_mem _ hlb]
        simp

/-- Witness for C8 at the concrete two-street catalog. -/
theorem select_select_clear_restores_witness :
    (c8Cfg.streetLayers "A" ≠ [] ∧ c8Cfg.streetLayers "B" ≠ []) ∧
    ((∀ l ∈ c8Cfg.streetLayers "A",
       styleSetCount (selectSelectClearTrace c8Cfg "A" "B") l
         (preStyle c8Cfg.streetData "A") = 1 ∧
       lastStyleOf (selectSelectClearTrace c8Cfg "A" "B") l =
         some (preStyle c8Cfg.streetData "A")) ∧
     (∀ l ∈ c8Cfg.streetLayers "B",
       styleSetCount (selectSelectClearTrace c8Cfg "A" "B") l
         (preStyle c8Cfg.streetData "B") = 1 ∧
       lastStyleOf (selectSelectClearTrace c8Cfg "A" "B") l =
         some (preStyle c8Cfg.streetData "B")) ∧
     (∀ l : Nat, lastStyleOf (selectSelectClearTrace c8Cfg "A" "B") l ≠
       some styleHighlight)) :=
  ⟨⟨by decide, by decide⟩,
   select_select_clear_restores c8Cfg "A" "B" (by decide) (by decide)
     (by decide) (by decide) (by decide) (by decide) (by decide)⟩

/-! ## C3: idempotency of `normalizeStreetName` (corrected)

A second application of the pipeline can strip a further street-type
token or honorific title that the first application's single anchored
pass (respectively single left-to-right pass) left behind, so
idempotency fails in general.  The character steps 2-5, however, are
idempotent; we prove this via the canonical-form predicate `canonStr`. -/

set_option maxHeartbeats 1000000 in
/-- Every character produced by uppercasing + NFD + mark stripping is
itself fixed by uppercasing and NFD. -/
theorem baseGood_of_decomp (c : Char) :
    ((nfdDecomp (jsUpper c)).filter (fun d => !isCombiningMark d)).all
      baseGood = true := by
  by_cases h1 : c = 'a'
  · subst h1; decide
  by_cases h2 : c = 'b'
  · subst h2; decide
  by_cases h3 : c = 'c'
  · subst h3; decide
  by_cases h4 : c = 'd'
  · subst h4; decide
  by_cases h5 : c = 'e'
  · subst h5; decide
  by_cases h6 : c = 'f'
  · subst h6; decide
  by_cases h7 : c = 'g'
  · subst h7; decide
  by_cases h8 : c = 'h'
  · subst h8; decide
  by_cases h9 : c = 'i'
  · subst h9; decide
  by_cases h10 : c = 'j'
  · subst h10; decide
  by_cases h11 : c = 'k'
  · subst h11; decide
  by_cases h12 : c = 'l'
  · subst h12; decide
  by_cases h13 : c = 'm'
  · subst h13; decide
  by_cases h14 : c = 'n'
  · subst h14; decide
  by_cases h15 : c = 'o'
  · subst h15; decide
  by_cases h16 : c = 'p'
  · subst h16; decide
  by_cases h17 : c = 'q'
  · subst h17; decide
  by_cases h18 : c = 'r'
  · subst h18; decide
  by_cases h19 : c = 's'
  · subst h19; decide
  by_cases h20 : c = 't'
  · subst h20; decide
  by_cases h21 : c = 'u'
  · subst h21; decide
  by_cases h22 : c = 'v'
  · subst h22; decide
  by_cases h23 : c = 'w'
  · subst h23; decide
  by_cases h24 : c = 'x'
  · subst h24; decide
  by_cases h25 : c = 'y'
  · subst h25; decide
  by_cases h26 : c = 'z'
  · subst h26; decide
  by_cases h27 : c = 'á'
  · subst h27; decide
  by_cases h28 : c = 'é'
  · subst h28; decide
  by_cases h29 : c = 'í'
  · subst h29; decide
  by_cases h30 : c = 'ó'
  · subst h30; decide
  by_cases h31 : c = 'ú'
  · subst h31; decide
  by_cases h32 : c = 'ü'
  · subst h32; decide
  by_cases h33 : c = 'ñ'
  · subst h33; decide
  by_cases h34 : c = 'à'
  · subst h34; decide
  by_cases h35 : c = 'è'
  · subst h35; decide
  by_cases h36 : c = 'ì'
  · subst h36; decide
  by_cases h37 : c = 'ò'
  · subst h37; decide
  by_cases h38 : c = 'ù'
  · subst h38; decide
  by_cases h39 : c = 'Á'
  · subst h39; decide
  by_cases h40 : c = 'É'
  · subst h40; decide
  by_cases h41 : c = 'Í'
  · subst h41; decide
  by_cases h42 : c = 'Ó'
  · subst h42; decide
  by_cases h43 : c = 'Ú'
  · subst h43; decide
  by_cases h44 : c = 'Ü'
  · subst h44; decide
  by_cases h45 : c = 'Ñ'
  · subst h45; decide
  by_cases h46 : c = 'À'
  · subst h46; decide
  by_cases h47 : c = 'È'
  · subst h47; decide
  by_cases h48 : c = 'Ì'
  · subst h48; decide
  by_cases h49 : c = 'Ò'
  · subst h49; decide
  by_cases h50 : c = 'Ù'
  · subst h50; decide
  have hup : jsUpper c = c := by
    simp [jsUpper, h1, h2, h3, h4, h5, h6, h7, h8, h9, h10, h11, h12, h13, h14, h15, h16, h17, h18, h19, h20, h21, h22, h23, h24, h25, h26, h27, h28, h29, h30, h31, h32, h33, h34, h35, h36, h37, h38]
  have hdec : nfdDecomp c = [c] := by
    simp [nfdDecomp, h39, h40, h41, h42, h43, h44, h45, h46, h47, h48, h49, h50]
  rw [hup, hdec]
  by_cases hm : isCombiningMark c
  · simp [hm]
  · simp [hm, baseGood, hup, hdec]

theorem mem_nfdStrip_baseGood {s : List Char} {d : Char}
    (h : d ∈ nfdStrip (s.map jsUpper)) :
    baseGood d = true ∧ isCombiningMark d = false := by
  unfold nfdStrip at h
  rcases List.mem_filter.mp h with ⟨hmem, hmark⟩
  simp only [Bool.not_eq_true'] at hmark
  refine ⟨?_, hmark⟩
  rcases List.mem_flatten.mp hmem with ⟨l, hl, hdl⟩
  rcases List.mem_map.mp hl with ⟨u, hu, rfl⟩
  rcases List.mem_map.mp hu with ⟨c, _, rfl⟩
  have hall := List.all_eq_true.mp (baseGood_of_decomp c)
  exact hall d (List.mem_filter.mpr ⟨hdl, by simp [hmark]⟩)

theorem and_true_parts {a b : Bool} (h : (a && b) = true) :
    a = true ∧ b = true := by
  simp at h
  exact h

theorem midAux_flag {c : Char} (p : Bool) (r : List Char) (hc : c ≠ ' ') :
    midAux p (c :: r) = (goodChar c && midAux false r) := by
  show (goodChar c &&
    (if c = ' ' then !p && midAux true r else midAux false r)) = _
  rw [if_neg hc]

theorem canonAux_flag {c : Char} (p : Bool) (r : List Char) (hc : c ≠ ' ') :
    canonAux p (c :: r) = (goodChar c && canonAux false r) := by
  show (goodChar c &&
    (if c = ' ' then !p && !r.isEmpty && canonAux true r
     else canonAux false r)) = _
  rw [if_neg hc]

theorem canon_true_head {c : Char} {r : List Char}
    (h : canonAux true (c :: r) = true) : c ≠ ' ' := by
  intro hc
  subst hc
  unfold canonAux at h
  simp at h

theorem goodChar_ws {c : Char} (hg : goodChar c = true)
    (hws : isJsWs c = true) : c = ' ' := by
  unfold goodChar at hg
  simp [hws] at hg
  tauto

theorem midAux_collapseAux : ∀ (s : List Char) (p : Bool),
    (∀ c ∈ s, baseGood c = true ∧ c ≠ ',' ∧ c ≠ '.') →
    midAux p (collapseAux p s) = true := by
  intro s
  induction s with
  | nil => intro p _; rfl
  | cons c r ih =>
    intro p h
    have hc := h c (List.mem_cons_self c r)
    have hr : ∀ x ∈ r, baseGood x = true ∧ x ≠ ',' ∧ x ≠ '.' :=
      fun x hx => h x (List.mem_cons_of_mem c hx)
    unfold collapseAux
    by_cases hws : isJsWs c
    · rw [if_pos hws]
      by_cases hp : p
      · subst hp
        rw [if_pos rfl]
        exact ih true hr
      · have hp' : p = false := by simpa using hp
        subst hp'
        rw [if_neg (by simp)]
        unfold midAux
        rw [if_pos rfl]
        simp [ih true hr]
        decide
    · rw [if_neg hws]
      have hcs : c ≠ ' ' := fun hh => hws (hh ▸ by decide)
      rw [midAux_flag p _ hcs]
      have hgood : goodChar c = true := by
        unfold goodChar
        simp [hc.1, hc.2.1, hc.2.2, hws]
      simp [hgood, ih false hr]

theorem midAux_dropWhile_self {z : List Char} (h : midAux true z = true) :
    z.dropWhile isJsWs = z := by
  cases z with
  | nil => rfl
  | cons c r =>
    by_cases hc : c = ' '
    · subst hc
      unfold midAux at h
      simp at h
    · have hg : goodChar c = true := by
        rw [midAux_flag true r hc] at h
        exact (and_true_parts h).1
      have hws : isJsWs c = false := by
        by_contra hcon
        simp at hcon
        exact hc (goodChar_ws hg hcon)
      rw [List.dropWhile_cons, hws]
      simp

theorem midAux_dropWhile {z : List Char} (h : midAux false z = true) :
    midAux true (z.dropWhile isJsWs) = true := by
  cases z with
  | nil => exact h
  | cons c r =>
    by_cases hc : c = ' '
    · subst hc
      unfold midAux at h
      simp at h
      have hr : midAux true r = true := h.2
      rw [List.dropWhile_cons, show isJsWs ' ' = true from rfl]
      simp
      rw [midAux_dropWhile_self hr]
      exact hr
    · have hg : goodChar c = true := by
        rw [midAux_flag false r hc] at h
        exact (and_true_parts h).1
      have hws : isJsWs c = false := by
        by_contra hcon
        simp at hcon
        exact hc (goodChar_ws hg hcon)
      rw [List.dropWhile_cons, hws]
      simp
      rw [midAux_flag true r hc]
      rw [midAux_flag false r hc] at h
      exact h

theorem dropWhile_append_all {p : Char → Bool} {l1 : List Char}
    (l2 : List Char) (h : ∀ x ∈ l1, p x = true) :
    (l1 ++ l2).dropWhile p = l2.dropWhile p := by
  induction l1 with
  | nil => rfl
  | cons a t ih =>
    rw [List.cons_append, List.dropWhile_cons, h a (List.mem_cons_self a t)]
    simp
    exact ih (fun x hx => h x (List.mem_cons_of_mem a hx))

theorem dropWhile_append_of_ne {p : Char → Bool} {l1 : List Char}
    (l2 : List Char) (h : l1.dropWhile p ≠ []) :
    (l1 ++ l2).dropWhile p = l1.dropWhile p ++ l2 := by
  induction l1 with
  | nil => exact absurd rfl h
  | cons a t ih =>
    rw [List.cons_append, List.dropWhile_cons, List.dropWhile_cons]
    rw [List.dropWhile_cons] at h
    by_cases hp : p a = true
    · rw [hp] at h ⊢
      rw [if_pos rfl] at h
      rw [if_pos rfl, if_pos rfl]
      exact ih h
    · have hp' : p a = false := by simpa using hp
      rw [hp'] at h ⊢
      rw [if_neg (by simp), if_neg (by simp)]
      simp

theorem backTrim_nil : backTrim [] = [] := rfl

theorem backTrim_eq_nil_iff {r : List Char} :
    backTrim r = [] ↔ r.all isJsWs = true := by
  unfold backTrim
  rw [List.reverse_eq_nil_iff, List.dropWhile_eq_nil_iff]
  constructor
  · intro h
    rw [List.all_eq_true]
    intro x hx
    exact h x (List.mem_reverse.mpr hx)
  · intro h x hx
    exact List.all_eq_true.mp h x (List.mem_reverse.mp hx)

theorem backTrim_cons (c : Char) (r : List Char) :
    backTrim (c :: r) =
      if r.all isJsWs then (if isJsWs c then [] else [c])
      else c :: backTrim r := by
  unfold backTrim
  rw [List.reverse_cons]
  by_cases hall : r.all isJsWs = true
  · rw [if_pos hall]
    have hrev : ∀ x ∈ r.reverse, isJsWs x = true := by
      intro x hx
      exact List.all_eq_true.mp hall x (List.mem_reverse.mp hx)
    rw [dropWhile_append_all [c] hrev]
    by_cases hc : isJsWs c = true
    · rw [if_pos hc]
      unfold List.dropWhile
      rw [hc]
      rfl
    · have hc' : isJsWs c = false := by simpa using hc
      rw [if_neg (by simp [hc'])]
      unfold List.dropWhile
      rw [hc']
      rfl
  · rw [if_neg hall]
    have hne : r.reverse.dropWhile isJsWs ≠ [] := by
      rw [Ne, List.dropWhile_eq_nil_iff]
      intro hcon
      apply hall
      rw [List.all_eq_true]
      intro x hx
      exact hcon x (List.mem_reverse.mpr hx)
    rw [dropWhile_append_of_ne [c] hne]
    simp

theorem canonAux_backTrim : ∀ (z : List Char) (p : Bool),
    midAux p z = true → canonAux p (backTrim z) = true := by
  intro z
  induction z with
  | nil => intro p _; rfl
  | cons c r ih =>
    intro p h
    rw [backTrim_cons]
    by_cases hall : r.all isJsWs = true
    · rw [if_pos hall]
      by_cases hws : isJsWs c = true
      · rw [if_pos hws]
        rfl
      · rw [if_neg (by simp [hws])]
        have hc : c ≠ ' ' := fun hh => by
          rw [hh] at hws
          exact hws rfl
        rw [midAux_flag p r hc] at h
        rw [canonAux_flag p [] hc]
        simp [(and_true_parts h).1]
        rfl
    · rw [if_neg hall]
      by_cases hc : c = ' '
      · subst hc
        unfold midAux at h
        simp at h
        unfold canonAux
        rw [if_pos rfl]
        have hbt : (backTrim r).isEmpty = false := by
          cases hcon : backTrim r with
          | nil => exact absurd (backTrim_eq_nil_iff.mp hcon) hall
          | cons x t => rfl
        simp [h.1, h.2.1, ih true h.2.2, hbt]
      · rw [midAux_flag p r hc] at h
        rw [canonAux_flag p _ hc]
        have hparts := and_true_parts h
        simp [hparts.1, ih false hparts.2]

theorem canonStr_toCanonChars (s : List Char) :
    canonStr (toCanonChars s) = true := by
  unfold canonStr toCanonChars jsTrim
  have hchars : ∀ c ∈ removePunct (nfdStrip (s.map jsUpper)),
      baseGood c = true ∧ c ≠ ',' ∧ c ≠ '.' := by
    intro c hc
    rcases List.mem_filter.mp hc with ⟨hmem, hpunct⟩
    have hbg := mem_nfdStrip_baseGood hmem
    refine ⟨hbg.1, ?_, ?_⟩
    · intro hcon
      subst hcon
      simp at hpunct
    · intro hcon
      subst hcon
      simp at hpunct
  have hmid : midAux false
      (collapseAux false (removePunct (nfdStrip (s.map jsUpper)))) = true :=
    midAux_collapseAux _ false hchars
  have hmid2 := midAux_dropWhile hmid
  exact canonAux_backTrim _ true hmid2

theorem canon_chars : ∀ {z : List Char} {p : Bool}, canonAux p z = true →
    ∀ c ∈ z, goodChar c = true := by
  intro z
  induction z with
  | nil => intro p _ c hc; simp at hc
  | cons a r ih =>
    intro p h c hc
    have hparts : goodChar a = true ∧
        (if a = ' ' then !p && !r.isEmpty && canonAux true r
         else canonAux false r) = true := by
      exact and_true_parts h
    rcases List.mem_cons.mp hc with rfl | hcr
    · exact hparts.1
    · by_cases ha : a = ' '
      · rw [if_pos ha] at hparts
        have h2 := and_true_parts hparts.2
        exact ih h2.2 c hcr
      · rw [if_neg ha] at hparts
        exact ih hparts.2 c hcr

theorem goodChar_parts {c : Char} (h : goodChar c = true) :
    jsUpper c = c ∧ nfdDecomp c = [c] ∧ isCombiningMark c = false ∧
    (c = ',') = False ∧ (c = '.') = False := by
  unfold goodChar baseGood at h
  simp at h
  obtain ⟨⟨⟨⟨⟨h1, h2⟩, h3⟩, h4⟩, h5⟩, _⟩ := h
  exact ⟨h1, h2, h3, eq_false h4, eq_false h5⟩

theorem map_jsUpper_id {z : List Char} (h : ∀ c ∈ z, jsUpper c = c) :
    z.map jsUpper = z := by
  induction z with
  | nil => rfl
  | cons a r ih =>
    rw [List.map_cons, h a (List.mem_cons_self a r),
      ih (fun c hc => h c (List.mem_cons_of_mem a hc))]

theorem nfdStrip_fix {z : List Char}
    (h : ∀ c ∈ z, nfdDecomp c = [c] ∧ isCombiningMark c = false) :
    nfdStrip z = z := by
  induction z with
  | nil => rfl
  | cons a r ih =>
    have ha := h a (List.mem_cons_self a r)
    have hr := ih (fun c hc => h c (List.mem_cons_of_mem a hc))
    unfold nfdStrip at hr ⊢
    rw [List.map_cons, List.flatten_cons, List.filter_append, ha.1, hr]
    simp [ha.2]

theorem removePunct_fix {z : List Char}
    (h : ∀ c ∈ z, (c = ',') = False ∧ (c = '.') = False) :
    removePunct z = z := by
  unfold removePunct
  rw [List.filter_eq_self]
  intro a ha
  simp [(h a ha).1, (h a ha).2]

theorem goodChar_not_ws {c : Char} (hg : goodChar c = true) (hc : c ≠ ' ') :
    isJsWs c = false := by
  by_contra hcon
  simp at hcon
  exact hc (goodChar_ws hg hcon)

theorem collapseAux_fix : ∀ {z : List Char} {p : Bool},
    canonAux p z = true → collapseAux p z = z := by
  intro z
  induction z with
  | nil => intro p _; rfl
  | cons c r ih =>
    intro p h
    have hparts := and_true_parts h
    by_cases hc : c = ' '
    · subst hc
      rw [if_pos rfl] at hparts
      have h2 := and_true_parts hparts.2
      have h3 := and_true_parts h2.1
      have hp : p = false := by simpa using h3.1
      subst hp
      show collapseAux false (' ' :: r) = ' ' :: r
      unfold collapseAux
      rw [if_pos (by decide), if_neg (by simp)]
      rw [ih h2.2]
    · rw [if_neg hc] at hparts
      have hws := goodChar_not_ws hparts.1 hc
      unfold collapseAux
      rw [if_neg (by simp [hws])]
      rw [ih hparts.2]

theorem canon_dropWhile_fix {z : List Char} (h : canonAux true z = true) :
    z.dropWhile isJsWs = z := by
  cases z with
  | nil => rfl
  | cons c r =>
    have hc := canon_true_head h
    have hg := (and_true_parts h).1
    rw [List.dropWhile_cons, goodChar_not_ws hg hc]
    simp

theorem canon_not_all_ws : ∀ {r : List Char} {q : Bool},
    canonAux q r = true → r ≠ [] → r.all isJsWs = true → False := by
  intro r
  induction r with
  | nil => intro q _ hne _; exact hne rfl
  | cons c r' ih =>
    intro q h _ hall
    have hwc : isJsWs c = true := by
      have := List.all_eq_true.mp hall c (List.mem_cons_self c r')
      simpa using this
    have hparts := and_true_parts h
    have hc : c = ' ' := goodChar_ws hparts.1 hwc
    subst hc
    rw [if_pos rfl] at hparts
    have h2 := and_true_parts hparts.2
    have h3 := and_true_parts h2.1
    have hne' : r' ≠ [] := by
      intro hcon
      subst hcon
      simp at h3
    have hall' : r'.all isJsWs = true := by
      rw [List.all_eq_true] at hall ⊢
      intro x hx
      exact hall x (List.mem_cons_of_mem _ hx)
    exact ih h2.2 hne' hall'

theorem backTrim_fix : ∀ {z : List Char} {p : Bool},
    canonAux p z = true → backTrim z = z := by
  intro z
  induction z with
  | nil => intro p _; rfl
  | cons c r ih =>
    intro p h
    rw [backTrim_cons]
    have hparts := and_true_parts h
    by_cases hall : r.all isJsWs = true
    · rw [if_pos hall]
      cases hr : r with
      | nil =>
        subst hr
        by_cases hc : c = ' '
        · subst hc
          rw [if_pos rfl] at hparts
          simp at hparts
        · rw [if_neg (by simp [goodChar_not_ws hparts.1 hc])]
      | cons d r' =>
        subst hr
        by_cases hc : c = ' '
        · subst hc
          rw [if_pos rfl] at hparts
          have h2 := and_true_parts hparts.2
          exact (canon_not_all_ws h2.2 (by simp) hall).elim
        · rw [if_neg hc] at hparts
          exact (canon_not_all_ws hparts.2 (by simp) hall).elim
    · rw [if_neg hall]
      by_cases hc : c = ' '
      · subst hc
        rw [if_pos rfl] at hparts
        have h2 := and_true_parts hparts.2
        rw [ih h2.2]
      · rw [if_neg hc] at hparts
        rw [ih hparts.2]

theorem toCanonChars_fix {z : List Char} (h : canonStr z = true) :
    toCanonChars z = z := by
  unfold canonStr at h
  have hchars := canon_chars h
  have hup : ∀ c ∈ z, jsUpper c = c :=
    fun c hc => (goodChar_parts (hchars c hc)).1
  have hdec : ∀ c ∈ z, nfdDecomp c = [c] ∧ isCombiningMark c = false :=
    fun c hc => ⟨(goodChar_parts (hchars c hc)).2.1,
      (goodChar_parts (hchars c hc)).2.2.1⟩
  have hpunct : ∀ c ∈ z, (c = ',') = False ∧ (c = '.') = False :=
    fun c hc => ⟨(goodChar_parts (hchars c hc)).2.2.2.1,
      (goodChar_parts (hchars c hc)).2.2.2.2⟩
  unfold toCanonChars jsTrim
  rw [map_jsUpper_id hup, nfdStrip_fix hdec, removePunct_fix hpunct]
  show backTrim ((collapseWs z).dropWhile isJsWs) = z
  unfold collapseWs
  have hcanon0 : canonAux false z = true := by
    cases z with
    | nil => rfl
    | cons c r =>
      have hc := canon_true_head h
      rw [canonAux_flag false r hc]
      rw [canonAux_flag true r hc] at h
      exact h
  rw [collapseAux_fix hcanon0, canon_dropWhile_fix h, backTrim_fix h]

theorem canonAux_append : ∀ (u : List Char) (p : Bool) (v : List Char),
    canonAux p (u ++ v) = true → ∃ q, canonAux q v = true := by
  intro u
  induction u with
  | nil => intro p v h; exact ⟨p, h⟩
  | cons c u' ih =>
    intro p v h
    rw [List.cons_append] at h
    have hparts := and_true_parts h
    by_cases hc : c = ' '
    · subst hc
      rw [if_pos rfl] at hparts
      have h2 := and_true_parts hparts.2
      exact ih true v h2.2
    · rw [if_neg hc] at hparts
      exact ih false v hparts.2

theorem canonAux_of_head_not_ws {v : List Char} {q : Bool}
    (hq : canonAux q v = true)
    (hv : v = [] ∨ ∃ c t, v = c :: t ∧ isJsWs c = false) :
    canonStr v = true := by
  rcases hv with rfl | ⟨c, t, rfl, hws⟩
  · rfl
  · have hc : c ≠ ' ' := by
      intro hcon
      rw [hcon] at hws
      simp [isJsWs] at hws
    rw [canonAux_flag q t hc] at hq
    unfold canonStr
    rw [canonAux_flag true t hc]
    exact hq

theorem dropTokenCI_decomp : ∀ (t s r : List Char),
    dropTokenCI t s = some r → ∃ u, s = u ++ r ∧ u.length = t.length := by
  intro t
  induction t with
  | nil =>
    intro s r h
    unfold dropTokenCI at h
    exact ⟨[], by simpa using Option.some.inj h, rfl⟩
  | cons tc ts ih =>
    intro s r h
    cases s with
    | nil => exact absurd h (by simp [dropTokenCI])
    | cons c cs =>
      unfold dropTokenCI at h
      by_cases hm : jsUpper c = jsUpper tc
      · rw [if_pos hm] at h
        obtain ⟨u', hu1, hu2⟩ := ih cs r h
        exact ⟨c :: u', by simp [hu1], by simp [hu2]⟩
      · rw [if_neg hm] at h
        exact absurd h (by simp)

theorem dropWhile_shape (p : Char → Bool) : ∀ (l : List Char),
    l.dropWhile p = [] ∨
    ∃ c t, l.dropWhile p = c :: t ∧ p c = false := by
  intro l
  induction l with
  | nil => exact Or.inl rfl
  | cons a t ih =>
    rw [List.dropWhile_cons]
    by_cases hp : p a = true
    · rw [hp]
      simpa using ih
    · have hp' : p a = false := by simpa using hp
      rw [hp']
      exact Or.inr ⟨a, t, by simp, hp'⟩

theorem afterToken_decomp {rest r : List Char} (h : afterToken rest = some r) :
    ∃ w, rest = w ++ r ∧ w ≠ [] ∧ (∀ x ∈ w, isJsWs x = true) ∧
      (r = [] ∨ ∃ c t, r = c :: t ∧ isJsWs c = false) := by
  cases rest with
  | nil => simp [afterToken] at h
  | cons c cs =>
    simp only [afterToken] at h
    by_cases hws : isJsWs c = true
    · rw [if_pos hws] at h
      have hr : r = (c :: cs).dropWhile isJsWs := (Option.some.inj h).symm
      refine ⟨(c :: cs).takeWhile isJsWs, ?_, ?_, ?_, ?_⟩
      · rw [hr]
        exact (List.takeWhile_append_dropWhile (p := isJsWs)
          (l := c :: cs)).symm
      · rw [List.takeWhile_cons, hws]
        simp
      · intro x hx
        exact List.mem_takeWhile_imp hx
      · rw [hr]
        exact dropWhile_shape isJsWs (c :: cs)
    · rw [if_neg hws] at h
      simp at h

theorem tryTokens_decomp : ∀ (toks : List (List Char)) (s r : List Char),
    (∀ t ∈ toks, t ≠ []) → tryTokens toks s = some r →
    ∃ u w, s = u ++ w ++ r ∧ u ≠ [] ∧ w ≠ [] ∧
      (∀ x ∈ w, isJsWs x = true) ∧
      (r = [] ∨ ∃ c t, r = c :: t ∧ isJsWs c = false) := by
  intro toks
  induction toks with
  | nil => intro s r _ h; simp [tryTokens] at h
  | cons t ts ih =>
    intro s r hne h
    unfold tryTokens at h
    cases h1 : dropTokenCI t s with
    | none =>
      simp only [h1] at h
      exact ih s r (fun x hx => hne x (List.mem_cons_of_mem t hx)) h
    | some rest =>
      simp only [h1] at h
      cases h2 : afterToken rest with
      | none =>
        simp only [h2] at h
        exact ih s r (fun x hx => hne x (List.mem_cons_of_mem t hx)) h
      | some r0 =>
        simp only [h2] at h
        obtain rfl : r0 = r := Option.some.inj h
        obtain ⟨u, hu1, hu2⟩ := dropTokenCI_decomp t s rest h1
        obtain ⟨w, hw1, hw2, hw3, hw4⟩ := afterToken_decomp h2
        refine ⟨u, w, ?_, ?_, hw2, hw3, hw4⟩
        · rw [hu1, hw1, List.append_assoc]
        · intro hcon
          subst hcon
          simp at hu2
          exact hne t (List.mem_cons_self t ts)
            (List.length_eq_zero.mp hu2.symm)

theorem canonStr_stripStreetType {z : List Char} (h : canonStr z = true) :
    canonStr (stripStreetType z) = true := by
  unfold stripStreetType
  cases h1 : tryTokens streetTypeTokens z with
  | none => exact h
  | some r =>
    have hne : ∀ t ∈ streetTypeTokens, t ≠ [] := by decide
    obtain ⟨u, w, hz, _, _, _, hr⟩ := tryTokens_decomp _ z r hne h1
    unfold canonStr at h
    rw [hz] at h
    obtain ⟨q, hq⟩ := canonAux_append (u ++ w) true r h
    exact canonAux_of_head_not_ws hq hr

theorem canonAux_stripTitlesGo : ∀ (fuel : Nat) (s : List Char) (p w : Bool),
    s.length ≤ fuel → canonAux p s = true →
    canonAux p (stripTitlesGo fuel w s) = true ∧
    (s ≠ [] → stripTitlesGo fuel w s ≠ []) := by
  intro fuel
  induction fuel with
  | zero =>
    intro s p w hlen h
    have hs : s = [] := List.length_eq_zero.mp (Nat.le_zero.mp hlen)
    subst hs
    exact ⟨h, fun hcon => absurd rfl hcon⟩
  | succ fuel ih =>
    intro s p w hlen h
    cases s with
    | nil => exact ⟨h, fun hcon => absurd rfl hcon⟩
    | cons c rest =>
      have hlen' : rest.length ≤ fuel := by
        simp at hlen
        omega
      have hemit : canonAux p (c :: stripTitlesGo fuel (isWordChar c) rest) =
          true ∧ c :: stripTitlesGo fuel (isWordChar c) rest ≠ [] := by
        refine ⟨?_, by simp⟩
        by_cases hc : c = ' '
        · subst hc
          have hparts := and_true_parts h
          rw [if_pos rfl] at hparts
          have h2 := and_true_parts hparts.2
          have h3 := and_true_parts h2.1
          have hrest_ne : rest ≠ [] := by
            intro hcon
            subst hcon
            simp at h3
          have hout := ih rest true (isWordChar ' ') hlen' h2.2
          show (goodChar ' ' &&
            (if (' ' : Char) = ' ' then
              !p && !(stripTitlesGo fuel (isWordChar ' ') rest).isEmpty &&
                canonAux true (stripTitlesGo fuel (isWordChar ' ') rest)
             else canonAux false (stripTitlesGo fuel (isWordChar ' ') rest)))
            = true
          rw [if_pos rfl]
          have hone : (stripTitlesGo fuel (isWordChar ' ') rest).isEmpty
              = false := by
            cases hcase : stripTitlesGo fuel (isWordChar ' ') rest with
            | nil => exact absurd hcase (hout.2 hrest_ne)
            | cons x t => rfl
          simp [h3.1, hone, hout.1]
          decide
        · rw [canonAux_flag p rest hc] at h
          have hparts := and_true_parts h
          have hout := ih rest false (isWordChar c) hlen' hparts.2
          rw [canonAux_flag p _ hc]
          simp [hparts.1, hout.1]
      by_cases hw : w = true
      · subst hw
        have hgo : stripTitlesGo (fuel + 1) true (c :: rest) =
            c :: stripTitlesGo fuel (isWordChar c) rest := by
          simp [stripTitlesGo]
        rw [hgo]
        exact ⟨hemit.1, fun _ => hemit.2⟩
      · have hw' : w = false := by simpa using hw
        subst hw'
        cases h1 : tryTokens titleTokens (c :: rest) with
        | none =>
          have hgo : stripTitlesGo (fuel + 1) false (c :: rest) =
              c :: stripTitlesGo fuel (isWordChar c) rest := by
            simp [stripTitlesGo, h1]
          rw [hgo]
          exact ⟨hemit.1, fun _ => hemit.2⟩
        | some rest' =>
          have hgo : stripTitlesGo (fuel + 1) false (c :: rest) =
              stripTitlesGo fuel false rest' := by
            simp [stripTitlesGo, h1]
          rw [hgo]
          have htne : ∀ t ∈ titleTokens, t ≠ [] := by decide
          obtain ⟨u, w', hz, hu, hwne, hwall, hshape⟩ :=
            tryTokens_decomp titleTokens (c :: rest) rest' htne h1
          have hrest'_ne : rest' ≠ [] := by
            intro hcon
            subst hcon
            rw [List.append_nil] at hz
            rw [hz] at h
            obtain ⟨q', hq'⟩ := canonAux_append u p w' h
            exact canon_not_all_ws hq' hwne
              (List.all_eq_true.mpr (fun x hx => by simp [hwall x hx]))
          have hq : ∃ q, canonAux q rest' = true := by
            rw [hz] at h
            exact canonAux_append (u ++ w') p rest' h
          obtain ⟨q, hq⟩ := hq
          have hcanon' : canonStr rest' = true :=
            canonAux_of_head_not_ws hq hshape
          have hlen'' : rest'.length ≤ fuel := by
            have hlenz := congrArg List.length hz
            simp at hlenz
            have hu1 : 0 < u.length := List.length_pos.mpr hu
            have hw1 : 0 < w'.length := List.length_pos.mpr hwne
            simp at hlen
            omega
          have hout := ih rest' true false hlen'' hcanon'
          have hout_ne : stripTitlesGo fuel false rest' ≠ [] :=
            hout.2 hrest'_ne
          refine ⟨?_, fun _ => hout_ne⟩
          cases hcase : stripTitlesGo fuel false rest' with
          | nil => exact absurd hcase hout_ne
          | cons c' t' =>
            have hc' : c' ≠ ' ' := canon_true_head (hcase ▸ hout.1)
            rw [canonAux_flag p t' hc']
            have := hcase ▸ hout.1
            rw [canonAux_flag true t' hc'] at this
            exact this

/-- The title pass preserves canonical form. -/
theorem canonStr_stripTitles {z : List Char} (h : canonStr z = true) :
    canonStr (stripTitles z) = true :=
  (canonAux_stripTitlesGo z.length z true false (Nat.le_refl _) h).1

theorem normalize_of_ne_empty {y : String} (h : y ≠ "") :
    normalizeStreetName y =
      ⟨stripTitles (stripStreetType (toCanonChars y.data))⟩ := by
  unfold normalizeStreetName
  rw [if_neg h]

/-- The output of `normalizeStreetName` is already fixed by the
character pipeline (steps 2-5): only the prefix- and title-stripping
steps can act on a second application. -/
theorem toCanonChars_normalize (x : String) :
    toCanonChars (normalizeStreetName x).data =
      (normalizeStreetName x).data := by
  by_cases hx : x = ""
  · subst hx
    decide
  · rw [normalize_of_ne_empty hx]
    exact toCanonChars_fix
      (canonStr_stripTitles (canonStr_stripStreetType
        (canonStr_toCanonChars x.data)))

/-- **C3, counterexample.** `normalizeStreetName` is not idempotent: the
anchored street-type strip removes only one leading token per
application, so `"Avenida Avenida Callao"` normalizes to
`"AVENIDA CALLAO"`, which a second application further strips to
`"CALLAO"`. -/
theorem normalize_not_idempotent :
    normalizeStreetName "Avenida Avenida Callao" = "AVENIDA CALLAO" ∧
    normalizeStreetName (normalizeStreetName "Avenida Avenida Callao") =
      "CALLAO" ∧
    normalizeStreetName (normalizeStreetName "Avenida Avenida Callao") ≠
      normalizeStreetName "Avenida Avenida Callao" := by
  decide

/-- **C3 (amended).** `normalizeStreetName` is idempotent exactly on the
inputs whose normalized form is already fixed by the prefix- and
title-stripping steps: the character steps (uppercase, NFD + mark strip,
comma/period removal, whitespace collapse, trim) are always idempotent,
so a second application differs only when the normalized output still
begins with a street-type token or still contains a strippable title. -/
theorem normalize_idempotent_of_strip_fixed (x : String)
    (h1 : stripStreetType (normalizeStreetName x).data =
      (normalizeStreetName x).data)
    (h2 : stripTitles (normalizeStreetName x).data =
      (normalizeStreetName x).data) :
    normalizeStreetName (normalizeStreetName x) = normalizeStreetName x := by
  by_cases hy : normalizeStreetName x = ""
  · rw [hy]
    decide
  · rw [normalize_of_ne_empty hy, toCanonChars_normalize, h1, h2]

/-- Witness for C3 (amended) at `"Avenida Rivadavia"`, whose normalized
form `"RIVADAVIA"` is strip-fixed. -/
theorem normalize_idempotent_of_strip_fixed_witness :
    stripStreetType (normalizeStreetName "Avenida Rivadavia").data =
      (normalizeStreetName "Avenida Rivadavia").data ∧
    normalizeStreetName (normalizeStreetName "Avenida Rivadavia") =
      normalizeStreetName "Avenida Rivadavia" :=
  ⟨by decide,
   normalize_idempotent_of_strip_fixed "Avenida Rivadavia"
     (by decide) (by decide)⟩

end CallesBA
